import Mathlib

/-!
Verification of the rule-analysis engine (normalizer, segmenter, rule insight
builder, requirement path enumerator and path selector) of the crew/room AI
rule inspector.  The definitions below are a shallow embedding of the
TypeScript source: JavaScript numbers that hold rule indices are modelled as
`Int` (`none` standing for an absent or non-numeric `index` field, i.e. a
non-finite `Number(...)`), JavaScript strings as `String`, `Map`s as
insertion-ordered association lists, and `Array.prototype.sort` as a stable
top-down merge sort (`jsSort`).  Display indices are decimal strings produced
by `String(n)`, modelled by `intStr`; `Number(s)` applied to them is modelled
by `jsNumInt?`.  Recursions are written with explicit structural fuel so that
every definition evaluates inside the kernel.
-/

namespace RuleEngine

/-! ## Decimal strings: the model of JavaScript `String(n)` and `Number(s)` -/

/-- Decimal digit list of a natural number, most significant digit first,
with structural fuel (any fuel at least `n` is enough). -/
def natDigitsF : Nat → Nat → List Char
  | 0, n => [Nat.digitChar n]
  | fuel + 1, n =>
    if n < 10 then [Nat.digitChar n]
    else natDigitsF fuel (n / 10) ++ [Nat.digitChar (n % 10)]

/-- Decimal digit list of a natural number, most significant digit first. -/
def natDigits (n : Nat) : List Char := natDigitsF n n

/-- Decimal string of an integer: the model of JavaScript `String(n)` /
template interpolation of an integer-valued number. -/
def intStr (k : Int) : String :=
  if k < 0 then ⟨'-' :: natDigits k.natAbs⟩ else ⟨natDigits k.toNat⟩

/-- Numeric value of a decimal digit character. -/
def digitVal? (c : Char) : Option Nat :=
  if c.isDigit then some (c.toNat - 48) else none

/-- Fold a digit-character list into the natural number it denotes. -/
def parseDigits (cs : List Char) : Option Nat :=
  cs.foldl (fun acc c => acc.bind fun n => (digitVal? c).map fun d => 10 * n + d) (some 0)

/-- Parse a non-empty all-digit character list. -/
def parseNatStr (cs : List Char) : Option Nat :=
  if cs.isEmpty then none else parseDigits cs

/-- Integer value of a decimal string, the model of JavaScript `Number(s)`
restricted to the integer-valued strings the engine actually produces
(`none` models a non-finite result). -/
def jsNumInt? (s : String) : Option Int :=
  match s.data with
  | [] => none
  | c :: rest =>
    if c = '-' then (parseNatStr rest).map fun n => -(n : Int)
    else (parseNatStr (c :: rest)).map fun n => (n : Int)

theorem parseDigits_append (xs : List Char) (c : Char) :
    parseDigits (xs ++ [c]) =
      (parseDigits xs).bind fun n => (digitVal? c).map fun d => 10 * n + d := by
  simp [parseDigits, List.foldl_append]

theorem digitVal?_digitChar {d : Nat} (h : d < 10) :
    digitVal? (Nat.digitChar d) = some d := by
  interval_cases d <;> decide

theorem parseDigits_natDigitsF :
    ∀ fuel n, n ≤ fuel → parseDigits (natDigitsF fuel n) = some n := by
  intro fuel
  induction fuel with
  | zero =>
    intro n hn
    have : n = 0 := Nat.le_zero.1 hn
    subst this
    decide
  | succ fuel ih =>
    intro n hn
    rw [natDigitsF]
    split
    · next h =>
      simp [parseDigits, digitVal?_digitChar h]
    · next h =>
      have hdiv : n / 10 ≤ fuel := by
        have : n / 10 < n := Nat.div_lt_self (by omega) (by omega)
        omega
      rw [parseDigits_append, ih (n / 10) hdiv,
        digitVal?_digitChar (Nat.mod_lt n (by omega))]
      simp [Nat.div_add_mod]

theorem parseDigits_natDigits (n : Nat) : parseDigits (natDigits n) = some n :=
  parseDigits_natDigitsF n n le_rfl

theorem natDigitsF_ne_nil (fuel n : Nat) : natDigitsF fuel n ≠ [] := by
  cases fuel with
  | zero => simp [natDigitsF]
  | succ fuel =>
    rw [natDigitsF]
    split <;> simp

theorem natDigits_ne_nil (n : Nat) : natDigits n ≠ [] := natDigitsF_ne_nil n n

theorem mem_natDigitsF_isDigit :
    ∀ fuel n, n ≤ fuel → ∀ c ∈ natDigitsF fuel n, c.isDigit = true := by
  intro fuel
  induction fuel with
  | zero =>
    intro n hn c hc
    have : n = 0 := Nat.le_zero.1 hn
    subst this
    simp only [natDigitsF, List.mem_singleton] at hc
    subst hc
    decide
  | succ fuel ih =>
    intro n hn c hc
    rw [natDigitsF] at hc
    split at hc
    · next h =>
      simp only [List.mem_singleton] at hc
      subst hc
      interval_cases n <;> decide
    · next h =>
      simp only [List.mem_append, List.mem_singleton] at hc
      rcases hc with hc | hc
      · have hdiv : n / 10 ≤ fuel := by
          have : n / 10 < n := Nat.div_lt_self (by omega) (by omega)
          omega
        exact ih (n / 10) hdiv c hc
      · subst hc
        have hlt : n % 10 < 10 := Nat.mod_lt n (by omega)
        interval_cases h' : (n % 10) <;> decide

theorem head_natDigits_ne_neg (n : Nat) (c : Char) (cs : List Char)
    (h : natDigits n = c :: cs) : ¬ c = '-' := by
  intro hc
  have hmem : c ∈ natDigits n := by rw [h]; exact List.mem_cons_self c cs
  have := mem_natDigitsF_isDigit n n le_rfl c hmem
  subst hc
  simp [Char.isDigit] at this

theorem parseNatStr_natDigits (n : Nat) : parseNatStr (natDigits n) = some n := by
  have h : (natDigits n).isEmpty = false := by
    rcases hd : natDigits n with _ | _
    · exact absurd hd (natDigits_ne_nil n)
    · rfl
  rw [parseNatStr, h]
  simp [parseDigits_natDigits n]

theorem jsNumInt?_intStr (k : Int) : jsNumInt? (intStr k) = some k := by
  by_cases hk : k < 0
  · have h1 : intStr k = ⟨'-' :: natDigits k.natAbs⟩ := by unfold intStr; rw [if_pos hk]
    have h2 : jsNumInt? ⟨'-' :: natDigits k.natAbs⟩
        = (parseNatStr (natDigits k.natAbs)).map fun n => -(n : Int) := by
      simp only [jsNumInt?]
      simp
    rw [h1, h2, parseNatStr_natDigits]
    show some (-((k.natAbs : Nat) : Int)) = some k
    congr 1
    omega
  · have h1 : intStr k = ⟨natDigits k.toNat⟩ := by unfold intStr; rw [if_neg hk]
    rcases hd : natDigits k.toNat with _ | ⟨c, cs⟩
    · exact absurd hd (natDigits_ne_nil _)
    have hc := head_natDigits_ne_neg _ _ _ hd
    have h2 : jsNumInt? ⟨c :: cs⟩ = (parseNatStr (c :: cs)).map fun n => (n : Int) := by
      simp only [jsNumInt?]
      rw [if_neg hc]
    rw [h1, hd, h2, ← hd, parseNatStr_natDigits]
    show some (((k.toNat : Nat) : Int)) = some k
    congr 1
    omega

/-! ## Stable merge sort: the model of `Array.prototype.sort(comparator)` -/

/-- Merge two lists, taking from the left run while its head compares
less-or-equal (the tie behaviour of a stable sort).  Structural fuel; any
fuel at least `l.length + r.length` gives the true merge. -/
def jsMergeF (le : α → α → Bool) : Nat → List α → List α → List α
  | 0, l, r => l ++ r
  | _ + 1, [], r => r
  | _ + 1, a :: l, [] => a :: l
  | fuel + 1, a :: l, b :: r =>
    if le a b then a :: jsMergeF le fuel l (b :: r) else b :: jsMergeF le fuel (a :: l) r

/-- Stable top-down merge sort with structural fuel (any fuel at least
`l.length` is enough). -/
def jsSortF (le : α → α → Bool) : Nat → List α → List α
  | 0, l => l
  | fuel + 1, l =>
    if l.length ≤ 1 then l
    else
      jsMergeF le l.length (jsSortF le fuel (l.take (l.length / 2)))
        (jsSortF le fuel (l.drop (l.length / 2)))

/-- Stable top-down merge sort, the model of `Array.prototype.sort` with
comparator `cmp`, where `le a b` stands for `cmp(a,b) <= 0`.  ECMAScript only
pins the result down for consistent comparators; for inconsistent ones the
order is implementation-defined, and this model realises one of the
permitted outcomes. -/
def jsSort (le : α → α → Bool) (l : List α) : List α := jsSortF le l.length l

theorem jsMergeF_perm (le : α → α → Bool) :
    ∀ fuel (l r : List α), (jsMergeF le fuel l r).Perm (l ++ r) := by
  intro fuel
  induction fuel with
  | zero => intro l r; simp [jsMergeF]
  | succ fuel ih =>
    intro l r
    match l, r with
    | [], r => simp [jsMergeF]
    | a :: l, [] => simp [jsMergeF]
    | a :: l, b :: r =>
      rw [jsMergeF]
      split
      · exact ((ih l (b :: r)).cons a)
      · exact ((ih (a :: l) r).cons b).trans (List.perm_middle).symm

theorem jsSortF_perm (le : α → α → Bool) :
    ∀ fuel (l : List α), (jsSortF le fuel l).Perm l := by
  intro fuel
  induction fuel with
  | zero => intro l; simp [jsSortF]
  | succ fuel ih =>
    intro l
    rw [jsSortF]
    split
    · exact List.Perm.refl l
    · refine (jsMergeF_perm le _ _ _).trans ?_
      refine ((ih _).append (ih _)).trans ?_
      rw [List.take_append_drop]

theorem jsSort_perm (le : α → α → Bool) (l : List α) : (jsSort le l).Perm l :=
  jsSortF_perm le l.length l

theorem jsSort_mem_iff (le : α → α → Bool) (l : List α) (a : α) :
    a ∈ jsSort le l ↔ a ∈ l :=
  (jsSort_perm le l).mem_iff

theorem jsMergeF_pairwise (le : α → α → Bool) :
    ∀ fuel (l r : List α), l.length + r.length ≤ fuel →
    (∀ a ∈ l ++ r, ∀ b ∈ l ++ r, ∀ c ∈ l ++ r,
      le a b = true → le b c = true → le a c = true) →
    (∀ a ∈ l ++ r, ∀ b ∈ l ++ r, le a b = true ∨ le b a = true) →
    l.Pairwise (le · · = true) → r.Pairwise (le · · = true) →
    (jsMergeF le fuel l r).Pairwise (le · · = true) := by
  intro fuel
  induction fuel with
  | zero =>
    intro l r hfuel _ _ hl hr
    have hl0 : l = [] := List.eq_nil_of_length_eq_zero (by omega)
    have hr0 : r = [] := List.eq_nil_of_length_eq_zero (by omega)
    subst hl0; subst hr0
    simp [jsMergeF]
  | succ fuel ih =>
    intro l r hfuel htrans htot hl hr
    match l, r with
    | [], r => simpa [jsMergeF] using hr
    | a :: l, [] => simpa [jsMergeF] using hl
    | a :: l, b :: r =>
      rw [jsMergeF]
      split
      · next hle =>
        rw [List.pairwise_cons] at hl
        refine List.Pairwise.cons ?_ ?_
        · intro x hx
          have hx' : x ∈ l ++ b :: r := ((jsMergeF_perm le fuel l (b :: r)).mem_iff).1 hx
          rcases List.mem_append.1 hx' with h1 | h2
          · exact hl.1 x h1
          · rcases List.mem_cons.1 h2 with rfl | h3
            · exact hle
            · have hb : le b x = true := (List.pairwise_cons.1 hr).1 x h3
              exact htrans a (by simp) b (by simp) x (by simp [h3]) hle hb
        · have hmem3 : ∀ x, x ∈ l ++ b :: r → x ∈ a :: l ++ b :: r := by
            intro x hx
            simp only [List.mem_append, List.mem_cons] at hx ⊢
            tauto
          refine ih l (b :: r) (by simp at hfuel ⊢; omega) ?_ ?_ hl.2 hr
          · intro x hx y hy z hz
            exact htrans x (hmem3 x hx) y (hmem3 y hy) z (hmem3 z hz)
          · intro x hx y hy
            exact htot x (hmem3 x hx) y (hmem3 y hy)
      · next hle =>
        rw [List.pairwise_cons] at hr
        have hba : le b a = true := by
          rcases htot a (by simp) b (by simp) with h | h
          · exact absurd h hle
          · exact h
        refine List.Pairwise.cons ?_ ?_
        · intro x hx
          have hx' : x ∈ (a :: l) ++ r := ((jsMergeF_perm le fuel (a :: l) r).mem_iff).1 hx
          rcases List.mem_append.1 hx' with h1 | h2
          · rcases List.mem_cons.1 h1 with rfl | h3
            · exact hba
            · have hax : le a x = true := (List.pairwise_cons.1 hl).1 x h3
              exact htrans b (by simp) a (by simp) x (by simp [h3]) hba hax
          · exact hr.1 x h2
        · have hmem4 : ∀ x, x ∈ a :: l ++ r → x ∈ a :: l ++ b :: r := by
            intro x hx
            simp only [List.mem_append, List.mem_cons] at hx ⊢
            tauto
          refine ih (a :: l) r (by simp at hfuel ⊢; omega) ?_ ?_ hl hr.2
          · intro x hx y hy z hz
            exact htrans x (hmem4 x hx) y (hmem4 y hy) z (hmem4 z hz)
          · intro x hx y hy
            exact htot x (hmem4 x hx) y (hmem4 y hy)

theorem jsSortF_pairwise (le : α → α → Bool) :
    ∀ fuel (l : List α), l.length ≤ fuel →
    (∀ a ∈ l, ∀ b ∈ l, ∀ c ∈ l, le a b = true → le b c = true → le a c = true) →
    (∀ a ∈ l, ∀ b ∈ l, le a b = true ∨ le b a = true) →
    (jsSortF le fuel l).Pairwise (le · · = true) := by
  intro fuel
  induction fuel with
  | zero =>
    intro l hfuel _ _
    have hl0 : l = [] := List.eq_nil_of_length_eq_zero (by omega)
    subst hl0
    simp [jsSortF]
  | succ fuel ih =>
    intro l hfuel htrans htot
    rw [jsSortF]
    split
    · next h =>
      match l, h with
      | [], _ => exact List.Pairwise.nil
      | [a], _ => exact List.pairwise_singleton _ a
    · next h =>
      have hsub1 : ∀ x ∈ l.take (l.length / 2), x ∈ l := fun x hx => List.mem_of_mem_take hx
      have hsub2 : ∀ x ∈ l.drop (l.length / 2), x ∈ l := fun x hx => List.mem_of_mem_drop hx
      have hlen1 : (l.take (l.length / 2)).length ≤ fuel := by
        simp only [List.length_take]
        omega
      have hlen2 : (l.drop (l.length / 2)).length ≤ fuel := by
        simp only [List.length_drop]
        omega
      have hmem : ∀ x ∈ jsSortF le fuel (l.take (l.length / 2))
          ++ jsSortF le fuel (l.drop (l.length / 2)), x ∈ l := by
        intro x hx
        rcases List.mem_append.1 hx with h1 | h2
        · exact hsub1 x ((jsSortF_perm le fuel _).mem_iff.1 h1)
        · exact hsub2 x ((jsSortF_perm le fuel _).mem_iff.1 h2)
      have hmergefuel : (jsSortF le fuel (l.take (l.length / 2))).length
          + (jsSortF le fuel (l.drop (l.length / 2))).length ≤ l.length := by
        rw [(jsSortF_perm le fuel _).length_eq, (jsSortF_perm le fuel _).length_eq]
        simp only [List.length_take, List.length_drop]
        omega
      refine jsMergeF_pairwise le l.length _ _ hmergefuel ?_ ?_ ?_ ?_
      · intro x hx y hy z hz
        exact htrans x (hmem x hx) y (hmem y hy) z (hmem z hz)
      · intro x hx y hy
        exact htot x (hmem x hx) y (hmem y hy)
      · exact ih _ hlen1
          (fun a ha b hb c hc => htrans a (hsub1 a ha) b (hsub1 b hb) c (hsub1 c hc))
          (fun a ha b hb => htot a (hsub1 a ha) b (hsub1 b hb))
      · exact ih _ hlen2
          (fun a ha b hb c hc => htrans a (hsub2 a ha) b (hsub2 b hb) c (hsub2 c hc))
          (fun a ha b hb => htot a (hsub2 a ha) b (hsub2 b hb))

theorem jsSort_pairwise (le : α → α → Bool) (l : List α)
    (htrans : ∀ a ∈ l, ∀ b ∈ l, ∀ c ∈ l,
      le a b = true → le b c = true → le a c = true)
    (htot : ∀ a ∈ l, ∀ b ∈ l, le a b = true ∨ le b a = true) :
    (jsSort le l).Pairwise (le · · = true) :=
  jsSortF_pairwise le l.length l le_rfl htrans htot

theorem jsMergeF_all_le (le : α → α → Bool) :
    ∀ fuel (l r : List α), (∀ a ∈ l, ∀ b ∈ r, le a b = true) →
      jsMergeF le fuel l r = l ++ r := by
  intro fuel
  induction fuel with
  | zero => intro l r _; simp [jsMergeF]
  | succ fuel ih =>
    intro l r h
    match l, r with
    | [], r => simp [jsMergeF]
    | a :: l, [] => simp [jsMergeF]
    | a :: l, b :: r =>
      rw [jsMergeF, if_pos (h a (by simp) b (by simp)),
        ih l (b :: r) (fun x hx y hy => h x (by simp [hx]) y hy)]
      simp

theorem jsSortF_all_le (le : α → α → Bool) :
    ∀ fuel (l : List α), (∀ a ∈ l, ∀ b ∈ l, le a b = true) → jsSortF le fuel l = l := by
  intro fuel
  induction fuel with
  | zero => intro l _; simp [jsSortF]
  | succ fuel ih =>
    intro l hall
    rw [jsSortF]
    split
    · rfl
    · have hsub1 : ∀ x ∈ l.take (l.length / 2), x ∈ l := fun x hx => List.mem_of_mem_take hx
      have hsub2 : ∀ x ∈ l.drop (l.length / 2), x ∈ l := fun x hx => List.mem_of_mem_drop hx
      rw [ih _ (fun a ha b hb => hall a (hsub1 a ha) b (hsub1 b hb)),
        ih _ (fun a ha b hb => hall a (hsub2 a ha) b (hsub2 b hb)),
        jsMergeF_all_le le _ _ _ (fun a ha b hb => hall a (hsub1 a ha) b (hsub2 b hb)),
        List.take_append_drop]

theorem jsSort_all_le (le : α → α → Bool) (l : List α)
    (h : ∀ a ∈ l, ∀ b ∈ l, le a b = true) : jsSort le l = l :=
  jsSortF_all_le le l.length l h

/-! ## String helpers: the models of `trim`, `toLowerCase`, `startsWith`,
`includes` and `localeCompare` on JavaScript strings -/

/-- Whitespace test used by the `trim` model. -/
def isWsChar (c : Char) : Bool := c = ' ' || c = '\t' || c = '\n' || c = '\r'

/-- Model of `String.prototype.trim`. -/
def strTrim (s : String) : String :=
  ⟨((s.data.dropWhile isWsChar).reverse.dropWhile isWsChar).reverse⟩

/-- Model of `String.prototype.toLowerCase` (ASCII case folding). -/
def strLower (s : String) : String := ⟨s.data.map Char.toLower⟩

/-- Character-list version of `startsWith`. -/
def listStartsWith [DecidableEq α] : List α → List α → Bool
  | _, [] => true
  | [], _ :: _ => false
  | a :: as, b :: bs => a = b && listStartsWith as bs

/-- Model of `String.prototype.startsWith`. -/
def strStartsWith (s marker : String) : Bool := listStartsWith s.data marker.data

/-- Does the needle occur at some position of the haystack? -/
def containsFrom (needle : List Char) : List Char → Bool
  | [] => listStartsWith [] needle
  | c :: rest => listStartsWith (c :: rest) needle || containsFrom needle rest

/-- Model of `String.prototype.includes`. -/
def strIncludes (s sub : String) : Bool := containsFrom sub.data s.data

/-- Lexicographic three-way comparison of character lists. -/
def lexCmpChars : List Char → List Char → Int
  | [], [] => 0
  | [], _ :: _ => -1
  | _ :: _, [] => 1
  | a :: as, b :: bs => if a < b then -1 else if b < a then 1 else lexCmpChars as bs

/-- Model of `String.prototype.localeCompare` (sign contract only). -/
def strCmp (a b : String) : Int := lexCmpChars a.data b.data

/-- Less-or-equal comparator for the default `Array.prototype.sort` on
strings. -/
def strLeB (a b : String) : Bool := strCmp a b ≤ 0

/-! ## Data model: `types.ts` -/

/-- An AI rule as it appears in imported data; `index` models the finite
integer value of `Number(rule.index)`, `none` an absent or non-numeric
field. -/
structure Rule where
  index : Option Int := none
  condition : Option String := none
  action : Option String := none
  phase : Option String := none
deriving DecidableEq, Repr

/-- One segment of a subsystem bucket. -/
structure Segment where
  rules : List Rule
deriving DecidableEq, Repr

/-- Suppression link between a Skip rule and its target. -/
structure SuppressionInfo where
  ruleIndex : Int
  displayIndex : String
  always : Bool
deriving DecidableEq, Repr

/-- One constraint of a requirement path. -/
structure ConditionRequirement where
  condition : String
  expects : Bool
  displayIndex : String
deriving DecidableEq, Repr

/-- Derived annotation of one rule inside a segment. -/
structure RuleInsight where
  rule : Rule
  index : Int
  displayIndex : String
  condition : String
  action : String
  isSkip : Bool
  alwaysTrue : Bool
  suppressedBy : Option SuppressionInfo := none
  suppressesNext : Option SuppressionInfo := none
  requirements : Option (List ConditionRequirement) := none
  requirementPaths : Option (List (List ConditionRequirement)) := none
deriving DecidableEq, Repr

/-- Aggregate result of `analyzeSegment`. -/
structure SegmentInsight where
  rules : List RuleInsight
  guaranteedActions : List RuleInsight
  reachableActions : List RuleInsight
  unreachableActions : List RuleInsight
deriving DecidableEq, Repr

/-- Entity kind tag. -/
inductive EntityType where
  | crew
  | room
  | unknown
deriving DecidableEq, Repr

/-- A raw imported entity record; identifier-like fields are modelled as
strings. -/
structure RawEntity where
  id : Option String := none
  uid : Option String := none
  name : Option String := none
  type : Option String := none
  ai : Option (List Rule) := none
  rules : Option (List Rule) := none
  characterId : Option String := none
  roomId : Option String := none
deriving DecidableEq, Repr

/-- A normalized entity. -/
structure Entity where
  id : String
  name : String
  type : EntityType
  flatRules : List Rule
  source : RawEntity
deriving DecidableEq, Repr

/-! ## Normalizer: `normalizeEntities` -/

/-- The marker that classifies an action text as a Skip directive. -/
def skipMarker : String := "skip next "

/-- Is this rule a Skip-class rule? -/
def isSkip (rule : Rule) : Bool :=
  strStartsWith (strLower (strTrim (rule.action.getD ""))) skipMarker

/-- Entity type coercion used by the normalizer. -/
def toEntityType (type : Option String) (fallback : EntityType) : EntityType :=
  match type with
  | none => fallback
  | some t =>
    if t = "" then fallback
    else
      let lower := strLower t
      if strIncludes lower "crew" then EntityType.crew
      else if strIncludes lower "room" then EntityType.room
      else fallback

/-- The comparator passed to `rules.sort` by the normalizer: compares the
two explicit indices when both are finite numbers and reports a tie
otherwise. -/
def ruleCmp (a b : Rule) : Int :=
  match a.index, b.index with
  | some x, some y => x - y
  | _, _ => 0

/-- Boolean form of `ruleCmp a b <= 0`. -/
def ruleLe (a b : Rule) : Bool := ruleCmp a b ≤ 0

/-- The normalizer's rule sort. -/
def sortRulesByIndex (rules : List Rule) : List Rule := jsSort ruleLe rules

/-- The rule list a raw entity carries (`ai` first, then `rules`, else
empty). -/
def rawRuleList (raw : RawEntity) : List Rule :=
  match raw.ai with
  | some l => l
  | none => raw.rules.getD []

/-- Tag text of an entity type, as interpolated into identifiers. -/
def entityTypeTag : EntityType → String
  | EntityType.crew => "crew"
  | EntityType.room => "room"
  | EntityType.unknown => "unknown"

/-- The identifier chain `raw.uid ?? raw.id ?? raw.characterId ?? raw.roomId
?? idx`. -/
def entityIdentifier (raw : RawEntity) (idx : Nat) : String :=
  match raw.uid with
  | some u => u
  | none =>
    match raw.id with
    | some i => i
    | none =>
      match raw.characterId with
      | some c => c
      | none =>
        match raw.roomId with
        | some r => r
        | none => intStr (idx : Int)

/-- The displayed base name `(raw.name && String(raw.name).trim()) ||
"(unnamed)"`. -/
def baseNameOf (raw : RawEntity) : String :=
  match raw.name with
  | none => "(unnamed)"
  | some n => if strTrim n = "" then "(unnamed)" else strTrim n

/-- Main loop of the normalizer, threading the `seenIds` set. -/
def normGo (fallbackType : EntityType) : List RawEntity → Nat → List String → List Entity
  | [], _, _ => []
  | raw :: rest, idx, seen =>
    let rules := sortRulesByIndex (rawRuleList raw)
    let baseName := baseNameOf raw
    let identifier := entityIdentifier raw idx
    let id0 := entityTypeTag fallbackType ++ "|" ++ identifier
    let id := if id0 ∈ seen then id0 ++ "|" ++ intStr (idx : Int) else id0
    let ty := toEntityType raw.type fallbackType
    Entity.mk id baseName ty rules raw :: normGo fallbackType rest (idx + 1) (id :: seen)

/-- The normalizer.  A non-sequence input is modelled as `none` (the
`Array.isArray` guard fails on it). -/
def normalizeEntities (list : Option (List RawEntity)) (fallbackType : EntityType) :
    List Entity :=
  match list with
  | none => []
  | some l => normGo fallbackType l 0 []

/-! ## Segmenter: `buildSegmentsForSubsystem` -/

/-- The segmenter's forward scan with its running buffer. -/
def buildSegGo (current : List Rule) : List Rule → List (List Rule)
  | [] => if current.isEmpty then [] else [current]
  | r :: rest =>
    if isSkip r then buildSegGo (current ++ [r]) rest
    else (current ++ [r]) :: buildSegGo [] rest

/-- Split one bucket's rules into segments, each ending at (and including)
its first non-Skip action; trailing Skips form a final open segment. -/
def buildSegmentsForSubsystem (rules : List Rule) : List Segment :=
  (buildSegGo [] rules).map Segment.mk

/-- Human-facing display index: explicit numeric index plus one when
present, else the caller-provided fallback position plus one. -/
def getRuleDisplayIndex (rule : Rule) (fallbackIndex : Nat) : String :=
  match rule.index with
  | some k => intStr (k + 1)
  | none => intStr ((fallbackIndex : Int) + 1)

/-! ## Rule insight builder: the walk inside `analyzeSegment` -/

/-- The single-slot pending-suppression state of the walk. -/
structure PendingSkip where
  index : Int
  displayIndex : String
  always : Bool
deriving DecidableEq, Repr

/-- Zero-based position of a rule: its finite explicit index when present,
else the fallback position. -/
def zeroBasedOf (rule : Rule) (fallbackIndex : Nat) : Int :=
  match rule.index with
  | some k => k
  | none => (fallbackIndex : Int)

/-- Normalized condition text: `(rule.condition ?? "None").trim() ||
"None"`. -/
def normCondition (c : Option String) : String :=
  let t := strTrim (c.getD "None")
  if t = "" then "None" else t

/-- Vacuous-truth test on a normalized condition text. -/
def condAlwaysTrue (condition : String) : Bool := strLower condition = "none"

/-- Build the insight of one rule from the walk state: `idx` is the rule's
position inside the segment, `pending` the pending suppression, `next` the
immediately following rule of the segment, if any. -/
def mkInsight (r : Rule) (idx : Nat) (pending : Option PendingSkip) (next : Option Rule) :
    RuleInsight :=
  let condition := normCondition r.condition
  let isSkipRule := isSkip r
  let alwaysTrue := condAlwaysTrue condition
  let suppressedBy := pending.map fun p => SuppressionInfo.mk p.index p.displayIndex p.always
  { rule := r
    index := zeroBasedOf r idx
    displayIndex := getRuleDisplayIndex r idx
    condition := condition
    action := strTrim (r.action.getD "")
    isSkip := isSkipRule
    alwaysTrue := alwaysTrue
    suppressedBy := suppressedBy
    suppressesNext :=
      if suppressedBy.isNone && isSkipRule then
        next.map fun nr =>
          SuppressionInfo.mk (zeroBasedOf nr (idx + 1)) (getRuleDisplayIndex nr (idx + 1))
            alwaysTrue
      else none
    requirements := none
    requirementPaths := none }

/-- The pending-suppression transition of the walk. -/
def nextPending (r : Rule) (idx : Nat) (pending : Option PendingSkip) : Option PendingSkip :=
  if pending.isNone && isSkip r then
    some (PendingSkip.mk (zeroBasedOf r idx) (getRuleDisplayIndex r idx)
      (condAlwaysTrue (normCondition r.condition)))
  else none

/-- The top-to-bottom walk of `analyzeSegment` producing the raw insights. -/
def insightsGo : List Rule → Nat → Option PendingSkip → List RuleInsight
  | [], _, _ => []
  | r :: rest, idx, pending =>
    mkInsight r idx pending rest.head? :: insightsGo rest (idx + 1) (nextPending r idx pending)

/-- Raw insights of a segment before requirement paths are attached. -/
def buildInsights (rules : List Rule) : List RuleInsight := insightsGo rules 0 none

/-! ## Requirement maps and paths -/

/-- A recorded requirement: expected truth value and source display index. -/
structure RequirementRecord where
  expects : Bool
  displayIndex : String
deriving DecidableEq, Repr

/-- Insertion-ordered model of the `Map<string, RequirementRecord>`. -/
abbrev RequirementMap := List (String × RequirementRecord)

/-- Lookup in a requirement map (`map.get`). -/
def reqMapGet (m : RequirementMap) (condition : String) : Option RequirementRecord :=
  (m.find? fun e => e.1 = condition).map (·.2)

/-- Overwrite-or-append update of a requirement map (`map.set`). -/
def reqMapSet (m : RequirementMap) (k : String) (v : RequirementRecord) : RequirementMap :=
  if m.any fun e => e.1 = k then m.map fun e => if e.1 = k then (k, v) else e
  else m ++ [(k, v)]

/-- Canonical signature of a requirement map: sorted `condition|expects`
entries joined by semicolons. -/
def requirementMapSignature (m : RequirementMap) : String :=
  String.intercalate ";"
    (jsSort strLeB (m.map fun e => e.1 ++ "|" ++ (if e.2.expects then "T" else "F")))

/-- Extend a requirement map with `rule`'s condition expected to be
`expects`; `none` when the constraint contradicts an existing assignment
(and on a vacuously-true condition expected false). -/
def addRequirementToMap (m : RequirementMap) (rule : RuleInsight) (expects : Bool) :
    Option RequirementMap :=
  if rule.alwaysTrue then (if expects then some m else none)
  else
    match reqMapGet m rule.condition with
    | some existing => if existing.expects != expects then none else some m
    | none => some (m ++ [(rule.condition, RequirementRecord.mk expects rule.displayIndex)])

/-- Display-index comparator of `mapToRequirements`: numeric when both
sides parse as (finite) numbers, locale comparison otherwise. -/
def cmpDisplayStr (a b : String) : Int :=
  match jsNumInt? a, jsNumInt? b with
  | some x, some y => x - y
  | _, _ => strCmp a b

/-- Boolean form of `cmpDisplayStr a b <= 0` on condition requirements. -/
def reqLe (a b : ConditionRequirement) : Bool :=
  cmpDisplayStr a.displayIndex b.displayIndex ≤ 0

/-- Turn a requirement map into the ordered requirement list. -/
def mapToRequirements (m : RequirementMap) : List ConditionRequirement :=
  jsSort reqLe (m.map fun e => ConditionRequirement.mk e.1 e.2.expects e.2.displayIndex)

/-! ## Requirement path enumerator: `enumerateRequirementPaths` -/

/-- The mutable search state: visited signatures and collected result
paths. -/
structure EnumState where
  visited : List String
  results : List (List ConditionRequirement)
deriving DecidableEq, Repr

/-- Visited-state signature `index|skipNext|assignment signature`. -/
def dfsSignature (index : Nat) (skipNext : Bool) (assignments : RequirementMap) : String :=
  intStr (index : Int) ++ "|" ++ (if skipNext then "true" else "false") ++ "|"
    ++ requirementMapSignature assignments

/-- The depth-first search of the enumerator, with structural fuel.  `none`
models a crash (out of fuel, or indexing past the insight list, which the
JavaScript source would only do for an invalid target). -/
def enumDfs (insights : List RuleInsight) (targetIndex : Nat) :
    Nat → Nat → Bool → RequirementMap → EnumState → Option EnumState
  | 0, _, _, _, _ => none
  | fuel + 1, index, skipNext, assignments, st0 =>
    if targetIndex < index then some st0
    else
      let signature := dfsSignature index skipNext assignments
      if signature ∈ st0.visited then some st0
      else
        let st := EnumState.mk (signature :: st0.visited) st0.results
        match insights[index]? with
        | none => none
        | some rule =>
          if skipNext then
            if index = targetIndex then some st
            else enumDfs insights targetIndex fuel (index + 1) false assignments st
          else if rule.isSkip then
            match addRequirementToMap assignments rule true with
            | some trueMap =>
              match enumDfs insights targetIndex fuel (index + 1) true trueMap st with
              | none => none
              | some st1 =>
                if rule.alwaysTrue then some st1
                else
                  match addRequirementToMap assignments rule false with
                  | some falseMap =>
                    enumDfs insights targetIndex fuel (index + 1) false falseMap st1
                  | none => some st1
            | none =>
              if rule.alwaysTrue then some st
              else
                match addRequirementToMap assignments rule false with
                | some falseMap =>
                  enumDfs insights targetIndex fuel (index + 1) false falseMap st
                | none => some st
          else
            match addRequirementToMap assignments rule true with
            | some trueMap =>
              if index = targetIndex then
                let st1 := EnumState.mk st.visited (st.results ++ [mapToRequirements trueMap])
                if rule.alwaysTrue then some st1
                else
                  match addRequirementToMap assignments rule false with
                  | some falseMap =>
                    enumDfs insights targetIndex fuel (index + 1) false falseMap st1
                  | none => some st1
              else some st
            | none =>
              if rule.alwaysTrue then some st
              else
                match addRequirementToMap assignments rule false with
                | some falseMap =>
                  enumDfs insights targetIndex fuel (index + 1) false falseMap st
                | none => some st

/-- All requirement paths under which the target rule fires. -/
def enumerateRequirementPaths (insights : List RuleInsight) (targetIndex : Nat) :
    List (List ConditionRequirement) :=
  match enumDfs insights targetIndex (targetIndex + 2) 0 false [] (EnumState.mk [] []) with
  | some st => st.results
  | none => []

/-! ## Path post-processing and selection inside `analyzeSegment` -/

/-- Position of the nearest non-Skip insight strictly before the given
index, `-1` when none exists. -/
def lastActionPos (insights : List RuleInsight) : Nat → Int
  | 0 => -1
  | i + 1 =>
    match insights[i]? with
    | some x => if x.isSkip then lastActionPos insights i else (i : Int)
    | none => lastActionPos insights i

/-- The display-index lookup map over a segment's insights (`Map.set` in
segment order, so a later position wins on a display-index collision). -/
def insightLookup (insights : List RuleInsight) (d : String) : Option (RuleInsight × Nat) :=
  insights.enum.foldl (fun acc e => if e.2.displayIndex = d then some (e.2, e.1) else acc)
    none

/-- Trim a path to the constraints at or after the target, or strictly
after the nearest preceding firing action. -/
def trimPath (insights : List RuleInsight) (index : Nat) (lastAction : Int)
    (path : List ConditionRequirement) : List ConditionRequirement :=
  path.filter fun req =>
    match insightLookup insights req.displayIndex with
    | none => true
    | some e => decide (index ≤ e.2) || decide (lastAction < (e.2 : Int))

/-- Requirement map of a path, used for the dedup signature. -/
def pathMapOf (path : List ConditionRequirement) : RequirementMap :=
  path.foldl
    (fun m req => reqMapSet m req.condition (RequirementRecord.mk req.expects req.displayIndex))
    []

/-- Canonical signature of a path. -/
def pathSignature (path : List ConditionRequirement) : String :=
  requirementMapSignature (pathMapOf path)

/-- Deduplicate non-empty paths by canonical signature, keeping first
occurrences. -/
def dedupGo : List (List ConditionRequirement) → List String → List (List ConditionRequirement)
  | [], _ => []
  | p :: rest, seen =>
    if p.isEmpty then dedupGo rest seen
    else
      let sig := pathSignature p
      if sig ∈ seen then dedupGo rest seen
      else p :: dedupGo rest (sig :: seen)

/-- Deduplicate a path list by canonical signature. -/
def dedupPaths (paths : List (List ConditionRequirement)) : List (List ConditionRequirement) :=
  dedupGo paths []

/-- A scored path as built by `selectPreferredPaths`. -/
structure ScoredPath where
  path : List ConditionRequirement
  skipTrueCount : Nat
  skipFalseCount : Nat
  pathLength : Nat
deriving DecidableEq, Repr

/-- Score one path: counts of Skip-true and Skip-false constraints plus
length. -/
def scorePath (lookup : String → Option (RuleInsight × Nat))
    (path : List ConditionRequirement) : ScoredPath :=
  let counts := path.foldl
    (fun acc req =>
      match lookup req.displayIndex with
      | some e =>
        if e.1.isSkip then
          (if req.expects then (acc.1 + 1, acc.2) else (acc.1, acc.2 + 1))
        else acc
      | none => acc)
    ((0 : Nat), (0 : Nat))
  ScoredPath.mk path counts.1 counts.2 path.length

/-- The tie-break comparator of the path selector. -/
def scoreCmp (a b : ScoredPath) : Int :=
  if a.skipTrueCount ≠ b.skipTrueCount then (a.skipTrueCount : Int) - (b.skipTrueCount : Int)
  else if b.skipFalseCount ≠ a.skipFalseCount then
    (b.skipFalseCount : Int) - (a.skipFalseCount : Int)
  else if a.pathLength ≠ b.pathLength then (a.pathLength : Int) - (b.pathLength : Int)
  else 0

/-- Boolean form of `scoreCmp a b <= 0`. -/
def scoreLe (a b : ScoredPath) : Bool := scoreCmp a b ≤ 0

/-- Sort the deduplicated paths by score and keep those tied with the
best. -/
def selectPreferredPaths (paths : List (List ConditionRequirement))
    (lookup : String → Option (RuleInsight × Nat)) : List (List ConditionRequirement) :=
  if paths.length ≤ 1 then paths
  else
    let scored := paths.map (scorePath lookup)
    let sorted := jsSort scoreLe scored
    match sorted.head? with
    | none => []
    | some best =>
      let preferred := sorted.filter fun item =>
        item.skipTrueCount = best.skipTrueCount && item.skipFalseCount = best.skipFalseCount
          && item.pathLength = best.pathLength
      preferred.map (·.path)

/-- Attach the primary requirement path and the alternates to one non-Skip
insight. -/
def attachOne (insights : List RuleInsight) (index : Nat) (insight : RuleInsight) :
    RuleInsight :=
  if insight.isSkip then insight
  else
    let rawPaths := enumerateRequirementPaths insights index
    if rawPaths.isEmpty then insight
    else
      let lastAction := lastActionPos insights index
      let trimmedPaths := rawPaths.map (trimPath insights index lastAction)
      let requirementPaths := dedupPaths trimmedPaths
      if requirementPaths.isEmpty then insight
      else
        let preferredPaths := selectPreferredPaths requirementPaths (insightLookup insights)
        { insight with
          requirements :=
            if preferredPaths.isEmpty then insight.requirements else preferredPaths.head?
          requirementPaths :=
            if 1 < preferredPaths.length then some (preferredPaths.drop 1)
            else if 1 < requirementPaths.length then some (requirementPaths.drop 1)
            else insight.requirementPaths }

/-- Attach requirement paths to every insight of the segment. -/
def attachGo (insights : List RuleInsight) : List RuleInsight → Nat → List RuleInsight
  | [], _ => []
  | x :: xs, i => attachOne insights i x :: attachGo insights xs (i + 1)

/-- The requirement-attachment pass over a segment's insights. -/
def attachRequirements (insights : List RuleInsight) : List RuleInsight :=
  attachGo insights insights 0

/-- Final classification pass: returns `(guaranteed, unreachable,
reachable)` action lists in segment order. -/
def classifyGo : List RuleInsight → List RuleInsight × List RuleInsight × List RuleInsight
  | [] => ([], [], [])
  | x :: xs =>
    let rest := classifyGo xs
    if x.isSkip then rest
    else if x.suppressedBy.any (·.always) then (rest.1, x :: rest.2.1, rest.2.2)
    else if x.suppressedBy.isNone && x.alwaysTrue then (x :: rest.1, rest.2.1, rest.2.2)
    else (rest.1, rest.2.1, x :: rest.2.2)

/-- Full analysis of one segment. -/
def analyzeSegment (segment : Segment) : SegmentInsight :=
  if segment.rules.isEmpty then SegmentInsight.mk [] [] [] []
  else
    let insights := attachRequirements (buildInsights segment.rules)
    let parts := classifyGo insights
    SegmentInsight.mk insights parts.1 parts.2.2 parts.2.1

/-! ## Structural lemmas about the insight walk -/

theorem insightsGo_length (rs : List Rule) :
    ∀ idx p, (insightsGo rs idx p).length = rs.length := by
  induction rs with
  | nil => intro idx p; rfl
  | cons r rest ih =>
    intro idx p
    simp [insightsGo, ih]

theorem mem_insightsGo (rs : List Rule) :
    ∀ idx p x, x ∈ insightsGo rs idx p → ∃ r i pend next, x = mkInsight r i pend next := by
  induction rs with
  | nil => intro idx p x hx; cases hx
  | cons r rest ih =>
    intro idx p x hx
    rcases List.mem_cons.1 hx with rfl | hx
    · exact ⟨r, idx, p, rest.head?, rfl⟩
    · exact ih _ _ x hx

theorem insightsGo_getElem?_shape (rs : List Rule) :
    ∀ idx p i r, rs[i]? = some r →
      ∃ pend, (insightsGo rs idx p)[i]? = some (mkInsight r (idx + i) pend rs[i + 1]?) := by
  induction rs with
  | nil => intro idx p i r hr; simp at hr
  | cons r0 rest ih =>
    intro idx p i r hr
    cases i with
    | zero =>
      rw [List.getElem?_cons_zero] at hr
      cases hr
      refine ⟨p, ?_⟩
      rw [insightsGo, List.getElem?_cons_zero, List.getElem?_cons_succ,
        ← List.head?_eq_getElem?]
      rfl
    | succ i =>
      rw [List.getElem?_cons_succ] at hr
      rcases ih (idx + 1) (nextPending r0 idx p) i r hr with ⟨pend, hpend⟩
      refine ⟨pend, ?_⟩
      rw [insightsGo, List.getElem?_cons_succ, List.getElem?_cons_succ, hpend]
      congr 2
      omega

theorem insightsGo_suppressedBy_succ (rs : List Rule) :
    ∀ idx p i a b, (insightsGo rs idx p)[i]? = some a →
      (insightsGo rs idx p)[i + 1]? = some b →
      b.suppressedBy =
        if a.suppressedBy.isNone && a.isSkip then
          some (SuppressionInfo.mk a.index a.displayIndex a.alwaysTrue)
        else none := by
  induction rs with
  | nil => intro idx p i a b ha _; rw [insightsGo] at ha; simp at ha
  | cons r0 rest ih =>
    intro idx p i a b ha hb
    cases i with
    | zero =>
      rw [insightsGo, List.getElem?_cons_zero] at ha
      cases ha
      rw [insightsGo, List.getElem?_cons_succ] at hb
      rcases rest with _ | ⟨r1, rest'⟩
      · simp [insightsGo] at hb
      · rw [insightsGo, List.getElem?_cons_zero] at hb
        cases hb
        show (mkInsight r1 (idx + 1) (nextPending r0 idx p) rest'.head?).suppressedBy = _
        simp only [mkInsight, nextPending]
        cases p with
        | none => simp [mkInsight]
        | some q => simp [mkInsight]
    | succ i =>
      rw [insightsGo, List.getElem?_cons_succ] at ha
      rw [insightsGo, List.getElem?_cons_succ] at hb
      exact ih (idx + 1) (nextPending r0 idx p) i a b ha hb

theorem mkInsight_suppressesNext_of_suppressed (r : Rule) (i : Nat)
    (p : Option PendingSkip) (next : Option Rule)
    (h : (mkInsight r i p next).suppressedBy.isSome = true) :
    (mkInsight r i p next).suppressesNext = none := by
  cases p with
  | none => simp [mkInsight] at h
  | some q => simp [mkInsight]

theorem mkInsight_suppressesNext_last (r : Rule) (i : Nat) (p : Option PendingSkip) :
    (mkInsight r i p none).suppressesNext = none := by
  cases p with
  | none => simp [mkInsight]
  | some q => simp [mkInsight]

theorem mkInsight_requirements (r : Rule) (i : Nat) (p : Option PendingSkip)
    (next : Option Rule) :
    (mkInsight r i p next).requirements = none
      ∧ (mkInsight r i p next).requirementPaths = none := by
  constructor <;> rfl

theorem mkInsight_alwaysTrue_condition (r : Rule) (i : Nat) (p : Option PendingSkip)
    (next : Option Rule) :
    (mkInsight r i p next).alwaysTrue
      = condAlwaysTrue (mkInsight r i p next).condition := rfl

theorem mkInsight_displayIndex (r : Rule) (i : Nat) (p : Option PendingSkip)
    (next : Option Rule) :
    (mkInsight r i p next).displayIndex = getRuleDisplayIndex r i := rfl

theorem mkInsight_displayIndex_canonical (r : Rule) (i : Nat) (p : Option PendingSkip)
    (next : Option Rule) :
    ∃ k, (mkInsight r i p next).displayIndex = intStr k := by
  rw [mkInsight_displayIndex, getRuleDisplayIndex]
  cases r.index with
  | none => exact ⟨(i : Int) + 1, rfl⟩
  | some k => exact ⟨k + 1, rfl⟩

theorem insightsGo_last_suppressesNext (rs : List Rule) :
    ∀ idx p a, (insightsGo rs idx p).getLast? = some a → a.suppressesNext = none := by
  induction rs with
  | nil => intro idx p a ha; cases ha
  | cons r0 rest ih =>
    intro idx p a ha
    rcases rest with _ | ⟨r1, rest'⟩
    · rw [insightsGo] at ha
      simp only [insightsGo, List.getLast?_singleton, Option.some.injEq] at ha
      subst ha
      exact mkInsight_suppressesNext_last r0 idx p
    · rw [insightsGo, insightsGo, List.getLast?_cons_cons] at ha
      refine ih (idx + 1) (nextPending r0 idx p) a ?_
      rw [insightsGo]
      exact ha

/-! ## Structural lemmas about the attachment pass -/

theorem attachOne_eq_update (L : List RuleInsight) (i : Nat) (x : RuleInsight) :
    ∃ a b, attachOne L i x = { x with requirements := a, requirementPaths := b } := by
  by_cases h1 : x.isSkip = true
  · refine ⟨x.requirements, x.requirementPaths, ?_⟩
    simp only [attachOne, if_pos h1]
  · by_cases h2 : (enumerateRequirementPaths L i).isEmpty = true
    · refine ⟨x.requirements, x.requirementPaths, ?_⟩
      simp only [attachOne, if_neg h1, if_pos h2]
    · by_cases h3 : (dedupPaths ((enumerateRequirementPaths L i).map
          (trimPath L i (lastActionPos L i)))).isEmpty = true
      · refine ⟨x.requirements, x.requirementPaths, ?_⟩
        simp only [attachOne, if_neg h1, if_neg h2, if_pos h3]
      · refine ⟨(if (selectPreferredPaths (dedupPaths ((enumerateRequirementPaths L i).map
            (trimPath L i (lastActionPos L i)))) (insightLookup L)).isEmpty then x.requirements
            else (selectPreferredPaths (dedupPaths ((enumerateRequirementPaths L i).map
            (trimPath L i (lastActionPos L i)))) (insightLookup L)).head?),
          (if 1 < (selectPreferredPaths (dedupPaths ((enumerateRequirementPaths L i).map
            (trimPath L i (lastActionPos L i)))) (insightLookup L)).length then
              some ((selectPreferredPaths (dedupPaths ((enumerateRequirementPaths L i).map
                (trimPath L i (lastActionPos L i)))) (insightLookup L)).drop 1)
            else if 1 < (dedupPaths ((enumerateRequirementPaths L i).map
                (trimPath L i (lastActionPos L i)))).length then
              some ((dedupPaths ((enumerateRequirementPaths L i).map
                (trimPath L i (lastActionPos L i)))).drop 1)
            else x.requirementPaths), ?_⟩
        simp only [attachOne, if_neg h1, if_neg h2, if_neg h3]

theorem attachOne_isSkip (L : List RuleInsight) (i : Nat) (x : RuleInsight) :
    (attachOne L i x).isSkip = x.isSkip := by
  rcases attachOne_eq_update L i x with ⟨a, b, h⟩
  rw [h]

theorem attachOne_suppressedBy (L : List RuleInsight) (i : Nat) (x : RuleInsight) :
    (attachOne L i x).suppressedBy = x.suppressedBy := by
  rcases attachOne_eq_update L i x with ⟨a, b, h⟩
  rw [h]

theorem attachOne_suppressesNext (L : List RuleInsight) (i : Nat) (x : RuleInsight) :
    (attachOne L i x).suppressesNext = x.suppressesNext := by
  rcases attachOne_eq_update L i x with ⟨a, b, h⟩
  rw [h]

theorem attachOne_alwaysTrue (L : List RuleInsight) (i : Nat) (x : RuleInsight) :
    (attachOne L i x).alwaysTrue = x.alwaysTrue := by
  rcases attachOne_eq_update L i x with ⟨a, b, h⟩
  rw [h]

theorem attachOne_condition (L : List RuleInsight) (i : Nat) (x : RuleInsight) :
    (attachOne L i x).condition = x.condition := by
  rcases attachOne_eq_update L i x with ⟨a, b, h⟩
  rw [h]

theorem attachOne_displayIndex (L : List RuleInsight) (i : Nat) (x : RuleInsight) :
    (attachOne L i x).displayIndex = x.displayIndex := by
  rcases attachOne_eq_update L i x with ⟨a, b, h⟩
  rw [h]

theorem attachOne_index (L : List RuleInsight) (i : Nat) (x : RuleInsight) :
    (attachOne L i x).index = x.index := by
  rcases attachOne_eq_update L i x with ⟨a, b, h⟩
  rw [h]

theorem attachGo_getElem? (L : List RuleInsight) :
    ∀ xs i j, (attachGo L xs i)[j]? = (xs[j]?).map (attachOne L (i + j)) := by
  intro xs
  induction xs with
  | nil => intro i j; simp [attachGo]
  | cons x xs ih =>
    intro i j
    cases j with
    | zero => simp [attachGo]
    | succ j =>
      rw [attachGo, List.getElem?_cons_succ, List.getElem?_cons_succ, ih (i + 1) j]
      have harith : i + 1 + j = i + (j + 1) := by omega
      rw [harith]

theorem attachGo_length (L : List RuleInsight) :
    ∀ xs i, (attachGo L xs i).length = xs.length := by
  intro xs
  induction xs with
  | nil => intro i; rfl
  | cons x xs ih => intro i; simp [attachGo, ih]

theorem mem_attachGo (L : List RuleInsight) :
    ∀ xs i x, x ∈ attachGo L xs i → ∃ j y, xs[j]? = some y ∧ x = attachOne L (i + j) y := by
  intro xs
  induction xs with
  | nil => intro i x hx; cases hx
  | cons y ys ih =>
    intro i x hx
    rcases List.mem_cons.1 hx with rfl | hx
    · exact ⟨0, y, by simp⟩
    · rcases ih (i + 1) x hx with ⟨j, z, hz, hx⟩
      refine ⟨j + 1, z, by simpa using hz, ?_⟩
      rw [hx]
      have harith : i + 1 + j = i + (j + 1) := by omega
      rw [harith]

/-! ## Structural lemmas about the classification pass -/

/-- Condition of the `unreachableActions` branch. -/
def classU (x : RuleInsight) : Bool := !x.isSkip && x.suppressedBy.any (·.always)

/-- Condition of the `guaranteedActions` branch. -/
def classG (x : RuleInsight) : Bool :=
  !x.isSkip && !(x.suppressedBy.any (·.always)) && (x.suppressedBy.isNone && x.alwaysTrue)

/-- Condition of the `reachableActions` branch. -/
def classR (x : RuleInsight) : Bool :=
  !x.isSkip && !(x.suppressedBy.any (·.always)) && !(x.suppressedBy.isNone && x.alwaysTrue)

theorem classifyGo_eq (xs : List RuleInsight) :
    classifyGo xs = (xs.filter classG, xs.filter classU, xs.filter classR) := by
  induction xs with
  | nil => rfl
  | cons x xs ih =>
    rw [classifyGo, ih]
    by_cases h1 : x.isSkip = true
    · have hU : classU x = false := by simp [classU, h1]
      have hG : classG x = false := by simp [classG, h1]
      have hR : classR x = false := by simp [classR, h1]
      simp [h1, List.filter_cons, hU, hG, hR]
    · by_cases h2 : x.suppressedBy.any (·.always) = true
      · have hU : classU x = true := by simp [classU, h1, h2]
        have hG : classG x = false := by simp [classG, h2]
        have hR : classR x = false := by simp [classR, h2]
        simp [h1, h2, List.filter_cons, hU, hG, hR]
      · by_cases h3 : (x.suppressedBy.isNone && x.alwaysTrue) = true
        · have hU : classU x = false := by simp [classU, h2]
          have hG : classG x = true := by
            simp only [classG, Bool.and_eq_true, Bool.not_eq_true']
            exact ⟨⟨by simpa using h1, by simpa using h2⟩, by simpa using h3⟩
          have hR : classR x = false := by simp [classR, h3]
          simp [h1, h2, h3, List.filter_cons, hU, hG, hR]
        · have hU : classU x = false := by simp [classU, h2]
          have hG : classG x = false := by simp [classG, h3]
          have hR : classR x = true := by
            simp only [classR, Bool.and_eq_true, Bool.not_eq_true']
            refine ⟨⟨by simpa using h1, by simpa using h2⟩, ?_⟩
            simpa using h3
          simp [h1, h2, h3, List.filter_cons, hU, hG, hR]

theorem analyzeSegment_eq (seg : Segment) :
    analyzeSegment seg =
      SegmentInsight.mk (attachRequirements (buildInsights seg.rules))
        (classifyGo (attachRequirements (buildInsights seg.rules))).1
        (classifyGo (attachRequirements (buildInsights seg.rules))).2.2
        (classifyGo (attachRequirements (buildInsights seg.rules))).2.1 := by
  rw [analyzeSegment]
  split
  · next h =>
    have : seg.rules = [] := List.isEmpty_iff.1 h
    rw [this]
    rfl
  · rfl

/-! ## Lemmas about the segmenter -/

theorem buildSegGo_flatten :
    ∀ (rs cur : List Rule), (buildSegGo cur rs).flatten = cur ++ rs := by
  intro rs
  induction rs with
  | nil =>
    intro cur
    rw [buildSegGo]
    split
    · next h => simp [List.isEmpty_iff.1 h]
    · simp
  | cons r rest ih =>
    intro cur
    rw [buildSegGo]
    split
    · rw [ih (cur ++ [r])]
      simp
    · simp only [List.flatten_cons, ih []]
      simp

theorem buildSegGo_ne_nil :
    ∀ (rs cur : List Rule) (s : List Rule), s ∈ buildSegGo cur rs → s ≠ [] := by
  intro rs
  induction rs with
  | nil =>
    intro cur s hs
    rw [buildSegGo] at hs
    split at hs
    · cases hs
    · next h =>
      rcases List.mem_singleton.1 hs with rfl
      exact fun hnil => h (by simp [hnil])
  | cons r rest ih =>
    intro cur s hs
    rw [buildSegGo] at hs
    split at hs
    · exact ih (cur ++ [r]) s hs
    · rcases List.mem_cons.1 hs with rfl | hs
      · simp
      · exact ih [] s hs

theorem buildSegGo_dropLast_skip :
    ∀ (rs cur : List Rule), (∀ r ∈ cur, isSkip r = true) →
      ∀ s ∈ buildSegGo cur rs, ∀ r ∈ s.dropLast, isSkip r = true := by
  intro rs
  induction rs with
  | nil =>
    intro cur hcur s hs r hr
    rw [buildSegGo] at hs
    split at hs
    · cases hs
    · rcases List.mem_singleton.1 hs with rfl
      exact hcur r ((List.dropLast_sublist s).subset hr)
  | cons r0 rest ih =>
    intro cur hcur s hs r hr
    rw [buildSegGo] at hs
    split at hs
    · next hskip =>
      refine ih (cur ++ [r0]) ?_ s hs r hr
      intro x hx
      rcases List.mem_append.1 hx with hx | hx
      · exact hcur x hx
      · rcases List.mem_singleton.1 hx with rfl
        exact hskip
    · rcases List.mem_cons.1 hs with rfl | hs
      · rw [List.dropLast_concat] at hr
        exact hcur r hr
      · exact ih [] (by simp) s hs r hr

theorem buildSegGo_init_end :
    ∀ (rs cur : List Rule) (i : Nat) (s : List Rule),
      i + 1 < (buildSegGo cur rs).length → (buildSegGo cur rs)[i]? = some s →
      ∃ r, s.getLast? = some r ∧ isSkip r = false := by
  intro rs
  induction rs with
  | nil =>
    intro cur i s hlen hs
    rw [buildSegGo] at hlen
    split at hlen
    · simp at hlen
    · simp at hlen
  | cons r0 rest ih =>
    intro cur i s hlen hs
    by_cases hskip : isSkip r0 = true
    · rw [buildSegGo, if_pos hskip] at hlen hs
      exact ih (cur ++ [r0]) i s hlen hs
    · rw [buildSegGo, if_neg hskip] at hlen hs
      cases i with
      | zero =>
        rw [List.getElem?_cons_zero] at hs
        cases hs
        exact ⟨r0, List.getLast?_concat _, by simpa using hskip⟩
      | succ i =>
        rw [List.getElem?_cons_succ] at hs
        simp only [List.length_cons] at hlen
        exact ih [] i s (by omega) hs

/-- Claim C2: the segments concatenate back to the input; every segment is
non-empty and all its rules before the last are Skips (so a segment ends at
its first non-Skip rule, if it has one); every segment except the last ends
in a non-Skip rule; and the final segment either ends in a non-Skip rule or
consists entirely of Skips (the trailing open segment). -/
theorem claim2_segmenter_reconstruction (rules : List Rule) :
    (((buildSegmentsForSubsystem rules).map Segment.rules).flatten = rules)
    ∧ (∀ s ∈ buildSegmentsForSubsystem rules,
        s.rules ≠ [] ∧ ∀ r ∈ s.rules.dropLast, isSkip r = true)
    ∧ (∀ i s, i + 1 < (buildSegmentsForSubsystem rules).length →
        (buildSegmentsForSubsystem rules)[i]? = some s →
        ∃ r, s.rules.getLast? = some r ∧ isSkip r = false)
    ∧ (∀ s, (buildSegmentsForSubsystem rules).getLast? = some s →
        (∃ r, s.rules.getLast? = some r ∧ isSkip r = false)
          ∨ ∀ r ∈ s.rules, isSkip r = true) := by
  refine ⟨?_, ?_, ?_, ?_⟩
  · rw [buildSegmentsForSubsystem]
    have : (List.map Segment.rules (List.map Segment.mk (buildSegGo [] rules)))
        = buildSegGo [] rules := by
      rw [List.map_map]
      exact List.map_id _
    rw [this, buildSegGo_flatten]
    rfl
  · intro s hs
    rw [buildSegmentsForSubsystem] at hs
    rcases List.mem_map.1 hs with ⟨t, ht, rfl⟩
    exact ⟨buildSegGo_ne_nil rules [] t ht,
      buildSegGo_dropLast_skip rules [] (by simp) t ht⟩
  · intro i s hlen hs
    rw [buildSegmentsForSubsystem] at hlen hs
    rw [List.getElem?_map] at hs
    rcases ho : (buildSegGo [] rules)[i]? with _ | t
    · rw [ho] at hs; cases hs
    · rw [ho] at hs
      cases hs
      exact buildSegGo_init_end rules [] i t (by simpa using hlen) ho
  · intro s hs
    rw [buildSegmentsForSubsystem] at hs
    have hmem : s ∈ (buildSegGo [] rules).map Segment.mk := by
      rw [List.getLast?_eq_getElem?] at hs
      exact List.getElem?_mem hs
    rcases List.mem_map.1 hmem with ⟨t, ht, rfl⟩
    have hne : t ≠ [] := buildSegGo_ne_nil rules [] t ht
    have hdl : ∀ r ∈ t.dropLast, isSkip r = true :=
      buildSegGo_dropLast_skip rules [] (by simp) t ht
    rcases hlast : t.getLast? with _ | r
    · exact absurd (List.getLast?_eq_none_iff.1 hlast) hne
    · by_cases hsk : isSkip r = true
      · right
        intro x hx
        have hgl : t.getLast hne = r := by
          have h2 := List.getLast?_eq_getLast t hne
          rw [hlast] at h2
          exact (Option.some_inj.1 h2).symm
        have hteq : t.dropLast ++ [r] = t := by
          rw [← hgl]
          exact List.dropLast_append_getLast hne
        rw [← hteq] at hx
        rcases List.mem_append.1 hx with hx | hx
        · exact hdl x hx
        · rcases List.mem_singleton.1 hx with rfl
          exact hsk
      · exact Or.inl ⟨r, rfl, by simpa using hsk⟩

/-- The rules of an analyzed segment are the attachment pass over the raw
walk. -/
theorem analyzeSegment_rules (seg : Segment) :
    (analyzeSegment seg).rules = attachRequirements (buildInsights seg.rules) := by
  rw [analyzeSegment_eq]

/-- Every rule insight of an analyzed segment is the attachment of the raw
insight at the same position. -/
theorem analyzeSegment_rules_getElem? (seg : Segment) (i : Nat) :
    (analyzeSegment seg).rules[i]?
      = ((buildInsights seg.rules)[i]?).map
          (attachOne (buildInsights seg.rules) i) := by
  rw [analyzeSegment_rules, attachRequirements, attachGo_getElem?]
  simp

/-- Claim C3: inside an analyzed segment, an active unsuppressed Skip with a
vacuous condition marks the next rule as suppressed with `always = true`; any
suppressed rule (in particular a suppressed Skip) leaves the
pending-suppression slot empty, so the rule after it is unsuppressed; a
suppressed Skip carries no `suppressesNext`; and the final rule of a segment
(in particular a trailing Skip) carries no `suppressesNext`. -/
theorem claim3_skip_suppression_chain (seg : Segment) (i : Nat) (a b : RuleInsight)
    (ha : (analyzeSegment seg).rules[i]? = some a)
    (hb : (analyzeSegment seg).rules[i + 1]? = some b) :
    (a.isSkip = true → a.suppressedBy = none → a.alwaysTrue = true →
      b.suppressedBy = some (SuppressionInfo.mk a.index a.displayIndex true))
    ∧ (a.suppressedBy.isSome = true → b.suppressedBy = none)
    ∧ (a.suppressedBy.isSome = true → a.suppressesNext = none)
    ∧ (∀ c, (analyzeSegment seg).rules.getLast? = some c → c.suppressesNext = none) := by
  rw [analyzeSegment_rules_getElem?] at ha hb
  rcases h0 : (buildInsights seg.rules)[i]? with _ | a0
  · rw [h0] at ha; cases ha
  rcases h1 : (buildInsights seg.rules)[i + 1]? with _ | b0
  · rw [h1] at hb; cases hb
  rw [h0] at ha
  rw [h1] at hb
  have haa : a = attachOne (buildInsights seg.rules) i a0 := by
    cases ha; rfl
  have hbb : b = attachOne (buildInsights seg.rules) (i + 1) b0 := by
    cases hb; rfl
  have hsucc := insightsGo_suppressedBy_succ seg.rules 0 none i a0 b0 h0 h1
  have hfa1 := attachOne_isSkip (buildInsights seg.rules) i a0
  have hfa2 := attachOne_suppressedBy (buildInsights seg.rules) i a0
  have hfa3 := attachOne_alwaysTrue (buildInsights seg.rules) i a0
  have hfa4 := attachOne_index (buildInsights seg.rules) i a0
  have hfa5 := attachOne_displayIndex (buildInsights seg.rules) i a0
  have hfa6 := attachOne_suppressesNext (buildInsights seg.rules) i a0
  have hfb2 := attachOne_suppressedBy (buildInsights seg.rules) (i + 1) b0
  refine ⟨?_, ?_, ?_, ?_⟩
  · intro hskip hsup halways
    rw [haa, hfa1] at hskip
    rw [haa, hfa2] at hsup
    rw [haa, hfa3] at halways
    rw [hbb, hfb2, hsucc, haa, hfa4, hfa5, hsup, hskip, halways]
    rfl
  · intro hsup
    rw [haa, hfa2] at hsup
    rw [hbb, hfb2, hsucc]
    have : a0.suppressedBy.isNone = false := by
      rcases h : a0.suppressedBy with _ | q
      · rw [h] at hsup; cases hsup
      · rfl
    rw [this]
    rfl
  · intro hsup
    rw [haa, hfa2] at hsup
    rw [haa, hfa6]
    rcases mem_insightsGo seg.rules 0 none a0 (List.getElem?_mem h0) with ⟨r, j, pend, next, rfl⟩
    exact mkInsight_suppressesNext_of_suppressed r j pend next hsup
  · intro c hc
    rw [analyzeSegment_rules, attachRequirements, List.getLast?_eq_getElem?,
      attachGo_length, attachGo_getElem?] at hc
    rcases h2 : (buildInsights seg.rules)[(buildInsights seg.rules).length - 1]? with _ | c0
    · rw [h2] at hc; cases hc
    · rw [h2] at hc
      have hcc : c = attachOne (buildInsights seg.rules) (0 + ((buildInsights seg.rules).length - 1)) c0 := by
        cases hc; rfl
      rw [hcc, attachOne_suppressesNext]
      refine insightsGo_last_suppressesNext seg.rules 0 none c0 ?_
      rw [List.getLast?_eq_getElem?]
      exact h2

/-- Witness for C3 at the spec's Skip-chain scenario
`[(None, SkipNext), (HpBelow50, SkipNext), (None, Fire)]`. -/
theorem claim3_skip_suppression_chain_witness :
    ∃ a b,
      (analyzeSegment (Segment.mk [Rule.mk none none (some "skip next x") none,
        Rule.mk none (some "HpBelow50") (some "skip next x") none,
        Rule.mk none none (some "Fire") none])).rules[0]? = some a
      ∧ (analyzeSegment (Segment.mk [Rule.mk none none (some "skip next x") none,
          Rule.mk none (some "HpBelow50") (some "skip next x") none,
          Rule.mk none none (some "Fire") none])).rules[1]? = some b
      ∧ b.suppressedBy = some (SuppressionInfo.mk a.index a.displayIndex true)
      ∧ b.suppressesNext = none := by
  refine ⟨_, _, rfl, rfl, ?_, ?_⟩
  · have h := claim3_skip_suppression_chain (Segment.mk
      [Rule.mk none none (some "skip next x") none,
       Rule.mk none (some "HpBelow50") (some "skip next x") none,
       Rule.mk none none (some "Fire") none]) 0 _ _ rfl rfl
    exact h.1 rfl rfl rfl
  · rfl

/-- Claim C5: the three action lists of a `SegmentInsight` pick out exactly
the non-Skip insights, unreachable iff always-suppressed, guaranteed iff
unsuppressed with a vacuous (`"None"`) condition, reachable otherwise; the
lists are pairwise disjoint and cover the non-Skip insights. -/
theorem claim5_partition (seg : Segment) :
    (∀ x, x ∈ (analyzeSegment seg).unreachableActions ↔
      x ∈ (analyzeSegment seg).rules ∧ x.isSkip = false
        ∧ x.suppressedBy.any (·.always) = true)
    ∧ (∀ x, x ∈ (analyzeSegment seg).guaranteedActions ↔
      x ∈ (analyzeSegment seg).rules ∧ x.isSkip = false
        ∧ x.suppressedBy = none ∧ x.alwaysTrue = true)
    ∧ (∀ x, x ∈ (analyzeSegment seg).reachableActions ↔
      x ∈ (analyzeSegment seg).rules ∧ x.isSkip = false
        ∧ x.suppressedBy.any (·.always) = false
        ∧ ¬(x.suppressedBy = none ∧ x.alwaysTrue = true))
    ∧ (∀ x, x ∈ (analyzeSegment seg).rules → x.isSkip = false →
      x ∈ (analyzeSegment seg).guaranteedActions
        ∨ x ∈ (analyzeSegment seg).unreachableActions
        ∨ x ∈ (analyzeSegment seg).reachableActions)
    ∧ (∀ x, ¬(x ∈ (analyzeSegment seg).guaranteedActions
          ∧ x ∈ (analyzeSegment seg).unreachableActions)
        ∧ ¬(x ∈ (analyzeSegment seg).guaranteedActions
          ∧ x ∈ (analyzeSegment seg).reachableActions)
        ∧ ¬(x ∈ (analyzeSegment seg).unreachableActions
          ∧ x ∈ (analyzeSegment seg).reachableActions))
    ∧ (∀ x ∈ (analyzeSegment seg).rules,
        x.alwaysTrue = true ↔ strLower x.condition = "none") := by
  have hU : ∀ x, x ∈ (analyzeSegment seg).unreachableActions ↔
      x ∈ (analyzeSegment seg).rules ∧ x.isSkip = false
        ∧ x.suppressedBy.any (·.always) = true := by
    intro x
    rw [analyzeSegment_eq]
    show x ∈ (classifyGo _).2.1 ↔ _
    rw [classifyGo_eq]
    simp only [List.mem_filter, classU, Bool.and_eq_true, Bool.not_eq_true']
  have hG : ∀ x, x ∈ (analyzeSegment seg).guaranteedActions ↔
      x ∈ (analyzeSegment seg).rules ∧ x.isSkip = false
        ∧ x.suppressedBy = none ∧ x.alwaysTrue = true := by
    intro x
    rw [analyzeSegment_eq]
    show x ∈ (classifyGo _).1 ↔ _
    rw [classifyGo_eq]
    simp only [List.mem_filter, classG, Bool.and_eq_true, Bool.not_eq_true',
      Option.isNone_iff_eq_none]
    constructor
    · rintro ⟨hmem, ⟨⟨h1, _⟩, h3, h4⟩⟩
      exact ⟨hmem, h1, h3, h4⟩
    · rintro ⟨hmem, h1, h3, h4⟩
      refine ⟨hmem, ⟨⟨h1, ?_⟩, h3, h4⟩⟩
      rw [h3]
      rfl
  have hR : ∀ x, x ∈ (analyzeSegment seg).reachableActions ↔
      x ∈ (analyzeSegment seg).rules ∧ x.isSkip = false
        ∧ x.suppressedBy.any (·.always) = false
        ∧ ¬(x.suppressedBy = none ∧ x.alwaysTrue = true) := by
    intro x
    rw [analyzeSegment_eq]
    show x ∈ (classifyGo _).2.2 ↔ _
    rw [classifyGo_eq]
    simp only [List.mem_filter, classR, Bool.and_eq_true, Bool.not_eq_true',
      Bool.and_eq_false_iff, Option.isNone_iff_eq_none]
    constructor
    · rintro ⟨hmem, ⟨⟨h1, h2⟩, h3⟩⟩
      refine ⟨hmem, h1, h2, ?_⟩
      rintro ⟨hnone, halways⟩
      rcases h3 with h3 | h3
      · rw [hnone] at h3; cases h3
      · rw [halways] at h3; cases h3
    · rintro ⟨hmem, h1, h2, h3⟩
      refine ⟨hmem, ⟨⟨h1, h2⟩, ?_⟩⟩
      by_cases hnone : x.suppressedBy = none
      · right
        rcases h : x.alwaysTrue with _ | _
        · rfl
        · exact absurd ⟨hnone, h⟩ h3
      · left
        rcases h : x.suppressedBy with _ | q
        · exact absurd h hnone
        · rfl
  refine ⟨hU, hG, hR, ?_, ?_, ?_⟩
  · intro x hmem hskip
    by_cases h2 : x.suppressedBy.any (·.always) = true
    · exact Or.inr (Or.inl ((hU x).2 ⟨hmem, hskip, h2⟩))
    · by_cases h3 : x.suppressedBy = none ∧ x.alwaysTrue = true
      · exact Or.inl ((hG x).2 ⟨hmem, hskip, h3.1, h3.2⟩)
      · refine Or.inr (Or.inr ((hR x).2 ⟨hmem, hskip, ?_, h3⟩))
        rcases h : x.suppressedBy.any (·.always) with _ | _
        · exact h
        · exact absurd h h2
  · intro x
    refine ⟨?_, ?_, ?_⟩
    · rintro ⟨hg, hu⟩
      rcases (hG x).1 hg with ⟨_, _, hnone, _⟩
      rcases (hU x).1 hu with ⟨_, _, halways⟩
      rw [hnone] at halways
      cases halways
    · rintro ⟨hg, hr⟩
      rcases (hG x).1 hg with ⟨_, _, hnone, halways⟩
      rcases (hR x).1 hr with ⟨_, _, _, hnot⟩
      exact hnot ⟨hnone, halways⟩
    · rintro ⟨hu, hr⟩
      rcases (hU x).1 hu with ⟨_, _, halways⟩
      rcases (hR x).1 hr with ⟨_, _, hfalse, _⟩
      rw [halways] at hfalse
      cases hfalse
  · intro x hmem
    rw [analyzeSegment_rules, attachRequirements] at hmem
    rcases mem_attachGo _ _ 0 x hmem with ⟨j, y, hy, rfl⟩
    rw [attachOne_alwaysTrue, attachOne_condition]
    rcases mem_insightsGo seg.rules 0 none y (List.getElem?_mem hy) with ⟨r, k, pend, next, rfl⟩
    rw [mkInsight_alwaysTrue_condition]
    simp [condAlwaysTrue]

/-- Witness for C5 at the two-rule Skip/Retreat segment. -/
theorem claim5_partition_witness :
    (RuleInsight.mk (Rule.mk none none (some "Retreat") none) 1 "2" "None" "Retreat"
        false true (some (SuppressionInfo.mk 0 "1" false)) none
        (some [ConditionRequirement.mk "EnemyVisible" false "1"]) none)
      ∈ (analyzeSegment (Segment.mk
        [Rule.mk none (some "EnemyVisible") (some "skip next thing") none,
         Rule.mk none none (some "Retreat") none])).reachableActions := by
  refine ((claim5_partition _).2.2.1 _).2 ⟨by decide, rfl, rfl, ?_⟩
  rintro ⟨h1, _⟩
  cases h1

/-! ## Claims C7, C6, C4 and C1 -/

/-- Amended claim C7: the display index of a rule's insight is the rule's
explicit finite numeric index plus one when present, and otherwise the
rule's 0-based position inside its analyzed segment plus one (which equals
the source position plus one only for the first segment of a bucket or when
explicit indices are carried). -/
theorem claim7_display_index_amended (seg : Segment) (i : Nat) (r : Rule) (x : RuleInsight)
    (hr : seg.rules[i]? = some r)
    (hx : (analyzeSegment seg).rules[i]? = some x) :
    x.displayIndex = getRuleDisplayIndex r i
    ∧ getRuleDisplayIndex r i
      = (match r.index with
         | some k => intStr (k + 1)
         | none => intStr ((i : Int) + 1)) := by
  refine ⟨?_, rfl⟩
  rw [analyzeSegment_rules_getElem?] at hx
  rcases insightsGo_getElem?_shape seg.rules 0 none i r hr with ⟨pend, hpend⟩
  unfold buildInsights at hx
  rw [hpend] at hx
  have hxx : x = attachOne (insightsGo seg.rules 0 none) i
      (mkInsight r (0 + i) pend seg.rules[i + 1]?) := by
    cases hx; rfl
  rw [hxx, attachOne_displayIndex, mkInsight_displayIndex]
  simp

/-- Counterexample to claim C7 as stated: a rule without an explicit index
in the second segment of its bucket gets display index `"1"` (its position
inside its segment plus one), not its source position plus one, which would
be `"2"`. -/
theorem claim7_display_index_counterexample :
    buildSegmentsForSubsystem [Rule.mk none none (some "do a") none,
      Rule.mk none none (some "do b") none]
      = [Segment.mk [Rule.mk none none (some "do a") none],
         Segment.mk [Rule.mk none none (some "do b") none]]
    ∧ ((analyzeSegment (Segment.mk [Rule.mk none none (some "do b") none])).rules.map
        (·.displayIndex)) = ["1"]
    ∧ intStr ((1 : Int) + 1) = "2"
    ∧ ("1" : String) ≠ "2" := by
  refine ⟨rfl, rfl, rfl, ?_⟩
  decide

/-- Witness for the amended C7 at the same bucket: inside its segment the
rule is at position `0`, so its display index is `"1"`. -/
theorem claim7_display_index_amended_witness :
    ∃ x, (analyzeSegment (Segment.mk [Rule.mk none none (some "do b") none])).rules[0]?
        = some x
      ∧ x.displayIndex = getRuleDisplayIndex (Rule.mk none none (some "do b") none) 0 := by
  refine ⟨_, rfl, ?_⟩
  exact (claim7_display_index_amended
    (Segment.mk [Rule.mk none none (some "do b") none]) 0
    (Rule.mk none none (some "do b") none) _ rfl rfl).1

theorem normGo_length (fallbackType : EntityType) :
    ∀ (l : List RawEntity) (idx : Nat) (seen : List String),
      (normGo fallbackType l idx seen).length = l.length := by
  intro l
  induction l with
  | nil => intro idx seen; rfl
  | cons raw rest ih =>
    intro idx seen
    simp [normGo, ih]

/-- Counterexample to claim C6 as stated: a non-sequence rule collection is
silently coerced to the empty entity list — the very value a legitimate
empty input produces — and no `InvalidInput` error exists anywhere in the
normalizer's result type. -/
theorem claim6_invalid_input_counterexample :
    normalizeEntities none EntityType.crew = []
    ∧ normalizeEntities (some []) EntityType.crew = [] := ⟨rfl, rfl⟩

/-- Amended claim C6: the normalizer never raises; a non-sequence input is
silently coerced to the empty entity list (indistinguishable from a
legitimate empty input), and every well-formed-or-malformed entity record
yields exactly one output entity (nothing is dropped or added). -/
theorem claim6_no_error_amended :
    (∀ fb, normalizeEntities none fb = [])
    ∧ (∀ fb, normalizeEntities none fb = normalizeEntities (some []) fb)
    ∧ (∀ l fb, (normalizeEntities (some l) fb).length = l.length) := by
  refine ⟨fun fb => rfl, fun fb => rfl, fun l fb => ?_⟩
  show (normGo fb l 0 []).length = l.length
  exact normGo_length fb l 0 []

/-- Claim C4: in the segment `[(EnemyVisible, SkipNext), (None, Retreat)]`,
`Retreat` is reachable, its primary requirement path is exactly
`[EnemyVisible = false]` at the Skip's display index `"1"`, and there are no
alternate paths. -/
theorem claim4_retreat_reachable :
    ((analyzeSegment (Segment.mk
        [Rule.mk none (some "EnemyVisible") (some "skip next thing") none,
         Rule.mk none none (some "Retreat") none])).reachableActions.map
      (fun x => (x.action, x.requirements, x.requirementPaths)))
      = [("Retreat", some [ConditionRequirement.mk "EnemyVisible" false "1"], none)]
    ∧ (analyzeSegment (Segment.mk
        [Rule.mk none (some "EnemyVisible") (some "skip next thing") none,
         Rule.mk none none (some "Retreat") none])).guaranteedActions = []
    ∧ (analyzeSegment (Segment.mk
        [Rule.mk none (some "EnemyVisible") (some "skip next thing") none,
         Rule.mk none none (some "Retreat") none])).unreachableActions = []
    ∧ ((analyzeSegment (Segment.mk
        [Rule.mk none (some "EnemyVisible") (some "skip next thing") none,
         Rule.mk none none (some "Retreat") none])).rules.map (·.displayIndex))
      = ["1", "2"] := by
  exact ⟨rfl, rfl, rfl, rfl⟩

/-- Claim C1 evaluated at the failing input: for the segment
`[(A, Skip), (B, Skip), (C, Action)]` the enumerator yields the two
deduplicated paths `[A true, C true]` and `[A false, B false, C true]`; the
selector scores the second best and makes it the primary, but the alternate
list is computed as `dedupedPaths.slice(1)`, which is again the second path
— so the primary is repeated among the alternates and the first path is
silently dropped, contradicting both the claim and the spec's own
distinctness invariant. -/
theorem claim1_selector_divergence :
    enumerateRequirementPaths (buildInsights
      [Rule.mk none (some "A") (some "skip next thing") none,
       Rule.mk none (some "B") (some "skip next thing") none,
       Rule.mk none (some "C") (some "do thing") none]) 2
      = [[ConditionRequirement.mk "A" true "1", ConditionRequirement.mk "C" true "3"],
         [ConditionRequirement.mk "A" false "1", ConditionRequirement.mk "B" false "2",
          ConditionRequirement.mk "C" true "3"]]
    ∧ ((analyzeSegment (Segment.mk
        [Rule.mk none (some "A") (some "skip next thing") none,
         Rule.mk none (some "B") (some "skip next thing") none,
         Rule.mk none (some "C") (some "do thing") none])).rules.map
        (fun x => (x.requirements, x.requirementPaths)))
      = [(none, none), (none, none),
         (some [ConditionRequirement.mk "A" false "1", ConditionRequirement.mk "B" false "2",
            ConditionRequirement.mk "C" true "3"],
          some [[ConditionRequirement.mk "A" false "1", ConditionRequirement.mk "B" false "2",
            ConditionRequirement.mk "C" true "3"]])] := by
  exact ⟨rfl, rfl⟩

/-! ## Claim C8: the normalizer's rule sort -/

theorem normGo_flatRules (fallbackType : EntityType) :
    ∀ (l : List RawEntity) (idx : Nat) (seen : List String) (i : Nat),
      ((normGo fallbackType l idx seen)[i]?).map (·.flatRules)
        = (l[i]?).map fun raw => sortRulesByIndex (rawRuleList raw) := by
  intro l
  induction l with
  | nil => intro idx seen i; rfl
  | cons raw rest ih =>
    intro idx seen i
    cases i with
    | zero => simp [normGo]
    | succ i =>
      rw [normGo]
      rw [List.getElem?_cons_succ, List.getElem?_cons_succ]
      exact ih (idx + 1) _ i

/-- Counterexample to claim C8 as stated: with explicit indices
`[7, missing, 5, 5, 9, 9]` the comparator is inconsistent (every pair
involving the missing index ties), and the stable sort leaves the
index-7 rule before an index-5 rule (ascending order violated), moves an
index-5 rule ahead of the missing-index rule (missing-pair order violated),
and swaps the two index-5 rules (equal-pair order violated). -/
theorem claim8_rule_sort_counterexample :
    ((normalizeEntities (some [RawEntity.mk none none none none (some
        [Rule.mk (some 7) (some "a") none none,
         Rule.mk none (some "b") none none,
         Rule.mk (some 5) (some "c") none none,
         Rule.mk (some 5) (some "d") none none,
         Rule.mk (some 9) (some "e") none none,
         Rule.mk (some 9) (some "f") none none]) none none none]) EntityType.crew).map
      (·.flatRules))
      = [[Rule.mk (some 5) (some "d") none none,
          Rule.mk (some 7) (some "a") none none,
          Rule.mk none (some "b") none none,
          Rule.mk (some 5) (some "c") none none,
          Rule.mk (some 9) (some "e") none none,
          Rule.mk (some 9) (some "f") none none]]
    ∧ (sortRulesByIndex
        [Rule.mk (some 7) (some "a") none none,
         Rule.mk none (some "b") none none,
         Rule.mk (some 5) (some "c") none none,
         Rule.mk (some 5) (some "d") none none,
         Rule.mk (some 9) (some "e") none none,
         Rule.mk (some 9) (some "f") none none])[1]?
        = some (Rule.mk (some 7) (some "a") none none)
    ∧ (sortRulesByIndex
        [Rule.mk (some 7) (some "a") none none,
         Rule.mk none (some "b") none none,
         Rule.mk (some 5) (some "c") none none,
         Rule.mk (some 5) (some "d") none none,
         Rule.mk (some 9) (some "e") none none,
         Rule.mk (some 9) (some "f") none none])[3]?
        = some (Rule.mk (some 5) (some "c") none none)
    ∧ ¬((7 : Int) ≤ 5) := by
  refine ⟨rfl, rfl, rfl, ?_⟩
  decide

/-- Amended claim C8: each entity's `flatRules` is the stable sort of its
raw rule list under the index comparator; the sort permutes the input; when
no rule carries a finite numeric index the order is exactly preserved; and
when every rule carries one, the result is in ascending index order.  With
finite and missing indices mixed the comparator is inconsistent, and
neither the ascending order nor the original relative order of tied pairs
is guaranteed. -/
theorem claim8_rule_sort_amended :
    (∀ (list : List RawEntity) (fb : EntityType) (i : Nat),
      ((normalizeEntities (some list) fb)[i]?).map (·.flatRules)
        = (list[i]?).map fun raw => sortRulesByIndex (rawRuleList raw))
    ∧ (∀ l : List Rule, (sortRulesByIndex l).Perm l)
    ∧ (∀ l : List Rule, (∀ r ∈ l, r.index = none) → sortRulesByIndex l = l)
    ∧ (∀ l : List Rule, (∀ r ∈ l, r.index.isSome = true) →
        (sortRulesByIndex l).Pairwise
          (fun a b => ∀ x y, a.index = some x → b.index = some y → x ≤ y)) := by
  refine ⟨?_, ?_, ?_, ?_⟩
  · intro list fb i
    exact normGo_flatRules fb list 0 [] i
  · intro l
    exact jsSort_perm ruleLe l
  · intro l h
    refine jsSort_all_le ruleLe l ?_
    intro a ha b hb
    simp [ruleLe, ruleCmp, h a ha]
  · intro l h
    have hp : (sortRulesByIndex l).Pairwise (fun a b => ruleLe a b = true) := by
      refine jsSort_pairwise ruleLe l ?_ ?_
      · intro a ha b hb c hc hab hbc
        rcases Option.isSome_iff_exists.1 (h a ha) with ⟨xa, hxa⟩
        rcases Option.isSome_iff_exists.1 (h b hb) with ⟨xb, hxb⟩
        rcases Option.isSome_iff_exists.1 (h c hc) with ⟨xc, hxc⟩
        simp only [ruleLe, ruleCmp, hxa, hxb, hxc, decide_eq_true_eq] at hab hbc ⊢
        omega
      · intro a ha b hb
        rcases Option.isSome_iff_exists.1 (h a ha) with ⟨xa, hxa⟩
        rcases Option.isSome_iff_exists.1 (h b hb) with ⟨xb, hxb⟩
        simp only [ruleLe, ruleCmp, hxa, hxb, decide_eq_true_eq]
        omega
    refine hp.imp ?_
    intro a b hab x y hx hy
    simp only [ruleLe, ruleCmp, hx, hy, decide_eq_true_eq] at hab
    omega

/-- Witness for the amended C8 at an all-finite-index list and an
all-missing-index list. -/
theorem claim8_rule_sort_amended_witness :
    sortRulesByIndex [Rule.mk (some 2) (some "x") none none,
        Rule.mk (some 1) (some "y") none none]
      = [Rule.mk (some 1) (some "y") none none, Rule.mk (some 2) (some "x") none none]
    ∧ (sortRulesByIndex [Rule.mk (some 2) (some "x") none none,
        Rule.mk (some 1) (some "y") none none]).Pairwise
        (fun a b => ∀ x y, a.index = some x → b.index = some y → x ≤ y)
    ∧ sortRulesByIndex [Rule.mk none (some "x") none none,
        Rule.mk none (some "y") none none]
      = [Rule.mk none (some "x") none none, Rule.mk none (some "y") none none] := by
  refine ⟨rfl, ?_, ?_⟩
  · exact claim8_rule_sort_amended.2.2.2
      [Rule.mk (some 2) (some "x") none none, Rule.mk (some 1) (some "y") none none]
      (by decide)
  · exact claim8_rule_sort_amended.2.2.1
      [Rule.mk none (some "x") none none, Rule.mk none (some "y") none none]
      (by decide)

/-! ## Claim C9: termination of the enumerator -/

theorem enumDfs_fuel_sufficient (insights : List RuleInsight) (targetIndex : Nat)
    (hlen : targetIndex < insights.length) :
    ∀ (fuel index : Nat) (skipNext : Bool) (assignments : RequirementMap)
      (st : EnumState), targetIndex + 1 - index < fuel →
      (enumDfs insights targetIndex fuel index skipNext assignments st).isSome = true := by
  intro fuel
  induction fuel with
  | zero =>
    intro index skipNext assignments st hfuel
    omega
  | succ fuel ih =>
    intro index skipNext assignments st hfuel
    by_cases h1 : targetIndex < index
    · simp only [enumDfs, if_pos h1, Option.isSome_some]
    · have hidx : index < insights.length := by omega
      have hrec : targetIndex + 1 - (index + 1) < fuel := by omega
      rcases h3 : insights[index]? with _ | rule
      · rw [List.getElem?_eq_none_iff] at h3
        omega
      by_cases h2 : dfsSignature index skipNext assignments ∈ st.visited
      · simp only [enumDfs, if_neg h1, if_pos h2, Option.isSome_some]
      · simp only [enumDfs, if_neg h1, if_neg h2, h3]
        cases skipNext with
        | true =>
          rw [if_pos rfl]
          by_cases h4 : index = targetIndex
          · rw [if_pos h4]
            rfl
          · rw [if_neg h4]
            exact ih (index + 1) false assignments _ hrec
        | false =>
          rw [if_neg (by decide : ¬(false = true))]
          by_cases h5 : rule.isSkip = true
          · rw [if_pos h5]
            rcases h6 : addRequirementToMap assignments rule true with _ | trueMap
            · dsimp only
              by_cases h7 : rule.alwaysTrue = true
              · rw [if_pos h7]
                rfl
              · rw [if_neg h7]
                rcases h8 : addRequirementToMap assignments rule false with _ | falseMap
                · rfl
                · exact ih (index + 1) false falseMap _ hrec
            · dsimp only
              have hin := ih (index + 1) true trueMap
                (EnumState.mk (dfsSignature index false assignments :: st.visited)
                  st.results) hrec
              rcases h9 : enumDfs insights targetIndex fuel (index + 1) true trueMap
                  (EnumState.mk (dfsSignature index false assignments :: st.visited)
                    st.results) with _ | st1
              · rw [h9] at hin
                simp at hin
              · dsimp only
                by_cases h7 : rule.alwaysTrue = true
                · rw [if_pos h7]
                  rfl
                · rw [if_neg h7]
                  rcases h8 : addRequirementToMap assignments rule false with _ | falseMap
                  · rfl
                  · exact ih (index + 1) false falseMap st1 hrec
          · rw [if_neg h5]
            rcases h6 : addRequirementToMap assignments rule true with _ | trueMap
            · dsimp only
              by_cases h7 : rule.alwaysTrue = true
              · rw [if_pos h7]
                rfl
              · rw [if_neg h7]
                rcases h8 : addRequirementToMap assignments rule false with _ | falseMap
                · rfl
                · exact ih (index + 1) false falseMap _ hrec
            · dsimp only
              by_cases h4 : index = targetIndex
              · rw [if_pos h4]
                by_cases h7 : rule.alwaysTrue = true
                · rw [if_pos h7]
                  rfl
                · rw [if_neg h7]
                  rcases h8 : addRequirementToMap assignments rule false with _ | falseMap
                  · rfl
                  · exact ih (index + 1) false falseMap _ hrec
              · rw [if_neg h4]
                rfl

/-- Claim C9: the enumerator's search always reaches a result.  Any fuel
strictly exceeding the remaining distance `targetIndex + 1 - index` to the
target bound suffices for the depth-first search, every already-visited
signature returns immediately without re-expansion, and for a valid target
the wrapper obtains the result state of the search. -/
theorem claim9_enumerator_terminates :
    (∀ (insights : List RuleInsight) (targetIndex fuel index : Nat) (skipNext : Bool)
        (assignments : RequirementMap) (st : EnumState),
      targetIndex < insights.length → targetIndex + 1 - index < fuel →
      (enumDfs insights targetIndex fuel index skipNext assignments st).isSome = true)
    ∧ (∀ (insights : List RuleInsight) (targetIndex fuel index : Nat) (skipNext : Bool)
        (assignments : RequirementMap) (st : EnumState),
      dfsSignature index skipNext assignments ∈ st.visited →
      enumDfs insights targetIndex (fuel + 1) index skipNext assignments st = some st)
    ∧ (∀ (insights : List RuleInsight) (targetIndex : Nat),
      targetIndex < insights.length →
      ∃ st, enumDfs insights targetIndex (targetIndex + 2) 0 false []
          (EnumState.mk [] []) = some st
        ∧ enumerateRequirementPaths insights targetIndex = st.results) := by
  refine ⟨?_, ?_, ?_⟩
  · intro insights targetIndex fuel index skipNext assignments st hlen hfuel
    exact enumDfs_fuel_sufficient insights targetIndex hlen fuel index skipNext
      assignments st hfuel
  · intro insights targetIndex fuel index skipNext assignments st hvis
    by_cases h1 : targetIndex < index
    · simp only [enumDfs, if_pos h1]
    · simp only [enumDfs, if_neg h1, if_pos hvis]
  · intro insights targetIndex hlen
    have h := enumDfs_fuel_sufficient insights targetIndex hlen (targetIndex + 2) 0 false
      [] (EnumState.mk [] []) (by omega)
    rcases heq : enumDfs insights targetIndex (targetIndex + 2) 0 false []
        (EnumState.mk [] []) with _ | st
    · rw [heq] at h
      cases h
    · exact ⟨st, rfl, by rw [enumerateRequirementPaths, heq]⟩

/-- Witness for C9 at the two-rule Skip/Retreat segment with target 1. -/
theorem claim9_enumerator_terminates_witness :
    (enumDfs (buildInsights
        [Rule.mk none (some "EnemyVisible") (some "skip next thing") none,
         Rule.mk none none (some "Retreat") none]) 1 3 0 false []
      (EnumState.mk [] [])).isSome = true
    ∧ ∃ st, enumDfs (buildInsights
        [Rule.mk none (some "EnemyVisible") (some "skip next thing") none,
         Rule.mk none none (some "Retreat") none]) 1 3 0 false []
          (EnumState.mk [] []) = some st
      ∧ enumerateRequirementPaths (buildInsights
          [Rule.mk none (some "EnemyVisible") (some "skip next thing") none,
           Rule.mk none none (some "Retreat") none]) 1 = st.results := by
  constructor
  · exact claim9_enumerator_terminates.1 _ 1 3 0 false [] (EnumState.mk [] [])
      (by decide) (by decide)
  · exact claim9_enumerator_terminates.2.2 _ 1 (by decide)

/-! ## Claim C10: shape of every produced requirement path -/

/-- A well-formed requirement path: entries in ascending display-index
order under the enumerator's comparator, and at most one entry per
condition text. -/
def GoodPath (p : List ConditionRequirement) : Prop :=
  p.Pairwise (fun a b => reqLe a b = true) ∧ (p.map (·.condition)).Nodup

/-- A well-formed requirement map: distinct condition keys, every recorded
display index a canonical integer string. -/
def MapOK (m : RequirementMap) : Prop :=
  (m.map (·.1)).Nodup ∧ ∀ e ∈ m, ∃ k, e.2.displayIndex = intStr k

theorem cmpDisplayStr_intStr (x y : Int) :
    cmpDisplayStr (intStr x) (intStr y) = x - y := by
  simp [cmpDisplayStr, jsNumInt?_intStr]

theorem reqLe_trans_canon (a b c : ConditionRequirement)
    (ha : ∃ k, a.displayIndex = intStr k) (hb : ∃ k, b.displayIndex = intStr k)
    (hc : ∃ k, c.displayIndex = intStr k)
    (hab : reqLe a b = true) (hbc : reqLe b c = true) : reqLe a c = true := by
  rcases ha with ⟨ka, hka⟩
  rcases hb with ⟨kb, hkb⟩
  rcases hc with ⟨kc, hkc⟩
  simp only [reqLe, hka, hkb, hkc, cmpDisplayStr_intStr, decide_eq_true_eq] at hab hbc ⊢
  omega

theorem reqLe_total_canon (a b : ConditionRequirement)
    (ha : ∃ k, a.displayIndex = intStr k) (hb : ∃ k, b.displayIndex = intStr k) :
    reqLe a b = true ∨ reqLe b a = true := by
  rcases ha with ⟨ka, hka⟩
  rcases hb with ⟨kb, hkb⟩
  simp only [reqLe, hka, hkb, cmpDisplayStr_intStr, decide_eq_true_eq]
  omega

theorem addRequirementToMap_ok (m : RequirementMap) (rule : RuleInsight) (expects : Bool)
    (m' : RequirementMap) (hm : MapOK m) (hr : ∃ k, rule.displayIndex = intStr k)
    (h : addRequirementToMap m rule expects = some m') : MapOK m' := by
  unfold addRequirementToMap at h
  by_cases halways : rule.alwaysTrue = true
  · rw [if_pos halways] at h
    by_cases hexp : expects = true
    · rw [if_pos hexp] at h
      cases h
      exact hm
    · rw [if_neg hexp] at h
      cases h
  · rw [if_neg halways] at h
    rcases hget : reqMapGet m rule.condition with _ | existing
    · rw [hget] at h
      dsimp only at h
      cases h
      constructor
      · rw [List.map_append, List.nodup_append]
        refine ⟨hm.1, List.nodup_singleton _, ?_⟩
        intro a hmem hnew
        have ha : a = rule.condition := List.mem_singleton.1 hnew
        subst ha
        rcases List.mem_map.1 hmem with ⟨e, he, heq⟩
        have hfind : m.find? (fun e => e.1 = rule.condition) = none := by
          rcases hf : m.find? fun e => e.1 = rule.condition with _ | v
          · exact hf
          · rw [reqMapGet, hf] at hget
            cases hget
        have hne := List.find?_eq_none.1 hfind e he
        simp only [decide_eq_true_eq] at hne
        exact hne heq
      · intro e he
        rcases List.mem_append.1 he with he | he
        · exact hm.2 e he
        · rcases List.mem_singleton.1 he with rfl
          exact hr
    · rw [hget] at h
      dsimp only at h
      by_cases hneq : (existing.expects != expects) = true
      · rw [if_pos hneq] at h
        cases h
      · rw [if_neg hneq] at h
        cases h
        exact hm

theorem mapToRequirements_good (m : RequirementMap) (hm : MapOK m) :
    GoodPath (mapToRequirements m) := by
  have hcanon : ∀ q ∈ m.map (fun e => ConditionRequirement.mk e.1 e.2.expects
      e.2.displayIndex), ∃ k, q.displayIndex = intStr k := by
    intro q hq
    rcases List.mem_map.1 hq with ⟨e, he, rfl⟩
    exact hm.2 e he
  constructor
  · refine jsSort_pairwise reqLe _ ?_ ?_
    · intro a ha b hb c hc hab hbc
      exact reqLe_trans_canon a b c (hcanon a ha) (hcanon b hb) (hcanon c hc) hab hbc
    · intro a ha b hb
      exact reqLe_total_canon a b (hcanon a ha) (hcanon b hb)
  · have hperm : ((mapToRequirements m).map (·.condition)).Perm
        ((m.map (fun e => ConditionRequirement.mk e.1 e.2.expects
          e.2.displayIndex)).map (·.condition)) :=
      (jsSort_perm reqLe _).map _
    rw [hperm.nodup_iff, List.map_map]
    exact hm.1

theorem enumDfs_results_good (insights : List RuleInsight) (targetIndex : Nat)
    (hcanon : ∀ x ∈ insights, ∃ k, x.displayIndex = intStr k) :
    ∀ (fuel index : Nat) (skipNext : Bool) (assignments : RequirementMap)
      (st st' : EnumState), MapOK assignments → (∀ p ∈ st.results, GoodPath p) →
      enumDfs insights targetIndex fuel index skipNext assignments st = some st' →
      ∀ p ∈ st'.results, GoodPath p := by
  intro fuel
  induction fuel with
  | zero =>
    intro index skipNext asg st st' _ _ h
    simp [enumDfs] at h
  | succ fuel ih =>
    intro index skipNext asg st st' hmap hres h
    by_cases h1 : targetIndex < index
    · simp only [enumDfs, if_pos h1] at h
      cases h
      exact hres
    · by_cases h2 : dfsSignature index skipNext asg ∈ st.visited
      · simp only [enumDfs, if_neg h1, if_pos h2] at h
        cases h
        exact hres
      · rcases h3 : insights[index]? with _ | rule
        · simp only [enumDfs, if_neg h1, if_neg h2, h3] at h
          exact Option.noConfusion h
        · simp only [enumDfs, if_neg h1, if_neg h2, h3] at h
          have hrule : ∃ k, rule.displayIndex = intStr k :=
            hcanon rule (List.getElem?_mem h3)
          cases skipNext with
          | true =>
            rw [if_pos rfl] at h
            by_cases h4 : index = targetIndex
            · rw [if_pos h4] at h
              cases h
              exact hres
            · rw [if_neg h4] at h
              exact ih (index + 1) false asg
                (EnumState.mk (dfsSignature index true asg :: st.visited) st.results)
                st' hmap hres h
          | false =>
            rw [if_neg (by decide : ¬(false = true))] at h
            by_cases h5 : rule.isSkip = true
            · rw [if_pos h5] at h
              rcases h6 : addRequirementToMap asg rule true with _ | trueMap
              · rw [h6] at h
                dsimp only at h
                by_cases h7 : rule.alwaysTrue = true
                · rw [if_pos h7] at h
                  cases h
                  exact hres
                · rw [if_neg h7] at h
                  rcases h8 : addRequirementToMap asg rule false with _ | falseMap
                  · rw [h8] at h
                    dsimp only at h
                    cases h
                    exact hres
                  · rw [h8] at h
                    dsimp only at h
                    exact ih (index + 1) false falseMap
                      (EnumState.mk (dfsSignature index false asg :: st.visited) st.results)
                      st' (addRequirementToMap_ok asg rule false falseMap hmap hrule h8)
                      hres h
              · rw [h6] at h
                dsimp only at h
                have hmap1 := addRequirementToMap_ok asg rule true trueMap hmap hrule h6
                rcases h9 : enumDfs insights targetIndex fuel (index + 1) true trueMap
                    (EnumState.mk (dfsSignature index false asg :: st.visited) st.results)
                    with _ | st1
                · rw [h9] at h
                  dsimp only at h
                  exact Option.noConfusion h
                · rw [h9] at h
                  dsimp only at h
                  have hres1 : ∀ p ∈ st1.results, GoodPath p :=
                    ih (index + 1) true trueMap
                      (EnumState.mk (dfsSignature index false asg :: st.visited) st.results)
                      st1 hmap1 hres h9
                  by_cases h7 : rule.alwaysTrue = true
                  · rw [if_pos h7] at h
                    cases h
                    exact hres1
                  · rw [if_neg h7] at h
                    rcases h8 : addRequirementToMap asg rule false with _ | falseMap
                    · rw [h8] at h
                      dsimp only at h
                      cases h
                      exact hres1
                    · rw [h8] at h
                      dsimp only at h
                      exact ih (index + 1) false falseMap st1 st'
                        (addRequirementToMap_ok asg rule false falseMap hmap hrule h8)
                        hres1 h
            · rw [if_neg h5] at h
              rcases h6 : addRequirementToMap asg rule true with _ | trueMap
              · rw [h6] at h
                dsimp only at h
                by_cases h7 : rule.alwaysTrue = true
                · rw [if_pos h7] at h
                  cases h
                  exact hres
                · rw [if_neg h7] at h
                  rcases h8 : addRequirementToMap asg rule false with _ | falseMap
                  · rw [h8] at h
                    dsimp only at h
                    cases h
                    exact hres
                  · rw [h8] at h
                    dsimp only at h
                    exact ih (index + 1) false falseMap
                      (EnumState.mk (dfsSignature index false asg :: st.visited) st.results)
                      st' (addRequirementToMap_ok asg rule false falseMap hmap hrule h8)
                      hres h
              · rw [h6] at h
                dsimp only at h
                have hmap1 := addRequirementToMap_ok asg rule true trueMap hmap hrule h6
                by_cases h4 : index = targetIndex
                · rw [if_pos h4] at h
                  have hres1 : ∀ p ∈ st.results ++ [mapToRequirements trueMap],
                      GoodPath p := by
                    intro p hp
                    rcases List.mem_append.1 hp with hp | hp
                    · exact hres p hp
                    · rcases List.mem_singleton.1 hp with rfl
                      exact mapToRequirements_good trueMap hmap1
                  by_cases h7 : rule.alwaysTrue = true
                  · rw [if_pos h7] at h
                    cases h
                    exact hres1
                  · rw [if_neg h7] at h
                    rcases h8 : addRequirementToMap asg rule false with _ | falseMap
                    · rw [h8] at h
                      dsimp only at h
                      cases h
                      exact hres1
                    · rw [h8] at h
                      dsimp only at h
                      exact ih (index + 1) false falseMap
                        (EnumState.mk (dfsSignature index false asg :: st.visited)
                          (st.results ++ [mapToRequirements trueMap]))
                        st' (addRequirementToMap_ok asg rule false falseMap hmap hrule h8)
                        hres1 h
                · rw [if_neg h4] at h
                  cases h
                  exact hres

theorem enumerateRequirementPaths_good (insights : List RuleInsight) (targetIndex : Nat)
    (hcanon : ∀ x ∈ insights, ∃ k, x.displayIndex = intStr k) :
    ∀ p ∈ enumerateRequirementPaths insights targetIndex, GoodPath p := by
  intro p hp
  rw [enumerateRequirementPaths] at hp
  rcases heq : enumDfs insights targetIndex (targetIndex + 2) 0 false []
      (EnumState.mk [] []) with _ | st
  · rw [heq] at hp
    cases hp
  · rw [heq] at hp
    refine enumDfs_results_good insights targetIndex hcanon (targetIndex + 2) 0 false []
      (EnumState.mk [] []) st ⟨List.nodup_nil, by intro e he; cases he⟩
      (by intro q hq; cases hq) heq p hp

theorem dedupGo_subset :
    ∀ (paths : List (List ConditionRequirement)) (seen : List String) (p),
      p ∈ dedupGo paths seen → p ∈ paths := by
  intro paths
  induction paths with
  | nil => intro seen p hp; cases hp
  | cons q rest ih =>
    intro seen p hp
    rw [dedupGo] at hp
    split at hp
    · exact List.mem_cons_of_mem q (ih seen p hp)
    · dsimp only at hp
      split at hp
      · exact List.mem_cons_of_mem q (ih seen p hp)
      · rcases List.mem_cons.1 hp with rfl | hp
        · exact List.mem_cons_self p rest
        · exact List.mem_cons_of_mem q (ih _ p hp)

theorem dedupPaths_subset (paths : List (List ConditionRequirement)) (p) :
    p ∈ dedupPaths paths → p ∈ paths :=
  dedupGo_subset paths [] p

theorem selectPreferredPaths_subset (paths : List (List ConditionRequirement))
    (lookup : String → Option (RuleInsight × Nat)) (p) :
    p ∈ selectPreferredPaths paths lookup → p ∈ paths := by
  intro hp
  by_cases hlen : paths.length ≤ 1
  · rw [selectPreferredPaths, if_pos hlen] at hp
    exact hp
  · simp only [selectPreferredPaths, if_neg hlen] at hp
    rcases hh : (jsSort scoreLe (paths.map (scorePath lookup))).head? with _ | best
    · rw [hh] at hp
      cases hp
    · rw [hh] at hp
      dsimp only at hp
      rcases List.mem_map.1 hp with ⟨sp, hsp, rfl⟩
      have hsorted : sp ∈ jsSort scoreLe (paths.map (scorePath lookup)) :=
        (List.mem_filter.1 hsp).1
      have hscored : sp ∈ paths.map (scorePath lookup) :=
        (jsSort_mem_iff scoreLe _ sp).1 hsorted
      rcases List.mem_map.1 hscored with ⟨q, hq, rfl⟩
      exact hq

/-- Trimming (a filter) preserves well-formedness of a path. -/
theorem GoodPath_trimPath (L : List RuleInsight) (j : Nat) (la : Int)
    (raw : List ConditionRequirement) (h : GoodPath raw) :
    GoodPath (trimPath L j la raw) := by
  constructor
  · exact List.Pairwise.sublist (List.filter_sublist raw) h.1
  · exact List.Nodup.sublist ((List.filter_sublist raw).map _) h.2

theorem buildInsights_canonical (rules : List Rule) :
    ∀ x ∈ buildInsights rules, ∃ k, x.displayIndex = intStr k := by
  intro x hx
  rcases mem_insightsGo rules 0 none x hx with ⟨r, i, pend, next, rfl⟩
  exact mkInsight_displayIndex_canonical r i pend next

/-- Every requirement path attached by `attachOne` to a fresh insight is a
trimmed enumerator result. -/
theorem attachOne_paths_sub (L : List RuleInsight) (j : Nat) (y : RuleInsight)
    (hreq : y.requirements = none) (hreqp : y.requirementPaths = none)
    (p : List ConditionRequirement)
    (hp : (attachOne L j y).requirements = some p
      ∨ ∃ ps, (attachOne L j y).requirementPaths = some ps ∧ p ∈ ps) :
    ∃ raw ∈ enumerateRequirementPaths L j,
      p = trimPath L j (lastActionPos L j) raw := by
  by_cases h1 : y.isSkip = true
  · simp only [attachOne, if_pos h1] at hp
    rcases hp with hp | ⟨ps, hps, _⟩
    · rw [hreq] at hp
      cases hp
    · rw [hreqp] at hps
      cases hps
  · by_cases h2 : (enumerateRequirementPaths L j).isEmpty = true
    · simp only [attachOne, if_neg h1, if_pos h2] at hp
      rcases hp with hp | ⟨ps, hps, _⟩
      · rw [hreq] at hp
        cases hp
      · rw [hreqp] at hps
        cases hps
    · by_cases h3 : (dedupPaths ((enumerateRequirementPaths L j).map
          (trimPath L j (lastActionPos L j)))).isEmpty = true
      · simp only [attachOne, if_neg h1, if_neg h2, if_pos h3] at hp
        rcases hp with hp | ⟨ps, hps, _⟩
        · rw [hreq] at hp
          cases hp
        · rw [hreqp] at hps
          cases hps
      · simp only [attachOne, if_neg h1, if_neg h2, if_neg h3] at hp
        have hmem : p ∈ dedupPaths ((enumerateRequirementPaths L j).map
            (trimPath L j (lastActionPos L j))) := by
          rcases hp with hp | ⟨ps, hps, hpin⟩
          · by_cases h4 : (selectPreferredPaths (dedupPaths
                ((enumerateRequirementPaths L j).map (trimPath L j (lastActionPos L j))))
                (insightLookup L)).isEmpty = true
            · rw [if_pos h4, hreq] at hp
              cases hp
            · rw [if_neg h4] at hp
              exact selectPreferredPaths_subset _ _ p (List.mem_of_mem_head? hp)
          · by_cases h5 : 1 < (selectPreferredPaths (dedupPaths
                ((enumerateRequirementPaths L j).map (trimPath L j (lastActionPos L j))))
                (insightLookup L)).length
            · rw [if_pos h5] at hps
              cases hps
              exact selectPreferredPaths_subset _ _ p (List.drop_subset 1 _ hpin)
            · rw [if_neg h5] at hps
              by_cases h6 : 1 < (dedupPaths ((enumerateRequirementPaths L j).map
                  (trimPath L j (lastActionPos L j)))).length
              · rw [if_pos h6] at hps
                cases hps
                exact List.drop_subset 1 _ hpin
              · rw [if_neg h6, hreqp] at hps
                cases hps
        have := dedupPaths_subset _ p hmem
        rcases List.mem_map.1 this with ⟨raw, hraw, rfl⟩
        exact ⟨raw, hraw, rfl⟩

/-- Claim C10: every requirement path attached to a rule insight by
`analyzeSegment` — the primary `requirements` and every alternate in
`requirementPaths` — lists its entries in ascending display-index order
under the enumerator's comparator (numeric when both display indices parse
as numbers, locale order otherwise) and contains at most one entry per
condition text. -/
theorem claim10_requirement_paths_ordered (seg : Segment) (x : RuleInsight)
    (p : List ConditionRequirement)
    (hx : x ∈ (analyzeSegment seg).rules)
    (hp : x.requirements = some p
      ∨ ∃ ps, x.requirementPaths = some ps ∧ p ∈ ps) :
    p.Pairwise (fun a b => reqLe a b = true) ∧ (p.map (·.condition)).Nodup := by
  rw [analyzeSegment_rules, attachRequirements] at hx
  rcases mem_attachGo _ _ 0 x hx with ⟨j, y, hy, rfl⟩
  rcases mem_insightsGo seg.rules 0 none y (List.getElem?_mem hy) with
    ⟨r, i, pend, next, rfl⟩
  rcases attachOne_paths_sub (buildInsights seg.rules) (0 + j) (mkInsight r i pend next)
      (mkInsight_requirements r i pend next).1 (mkInsight_requirements r i pend next).2
      p hp with ⟨raw, hraw, rfl⟩
  have hg : GoodPath raw :=
    enumerateRequirementPaths_good (buildInsights seg.rules) (0 + j)
      (buildInsights_canonical seg.rules) raw hraw
  exact GoodPath_trimPath _ _ _ raw hg

/-- Witness for C10 at the two-rule Skip/Retreat segment and its single
requirement path. -/
theorem claim10_requirement_paths_ordered_witness :
    ([ConditionRequirement.mk "EnemyVisible" false "1"]).Pairwise
      (fun a b => reqLe a b = true)
    ∧ (([ConditionRequirement.mk "EnemyVisible" false "1"]).map (·.condition)).Nodup := by
  exact claim10_requirement_paths_ordered
    (Segment.mk [Rule.mk none (some "EnemyVisible") (some "skip next thing") none,
      Rule.mk none none (some "Retreat") none])
    (RuleInsight.mk (Rule.mk none none (some "Retreat") none) 1 "2" "None" "Retreat"
      false true (some (SuppressionInfo.mk 0 "1" false)) none
      (some [ConditionRequirement.mk "EnemyVisible" false "1"]) none)
    [ConditionRequirement.mk "EnemyVisible" false "1"]
    (by decide) (Or.inl rfl)

/-- Witness for C2 at a concrete rule list: one Skip, one action, one
trailing Skip. -/
theorem claim2_segmenter_reconstruction_witness :
    (((buildSegmentsForSubsystem
        [Rule.mk none (some "A") (some "skip next thing") none,
         Rule.mk none none (some "act") none,
         Rule.mk none (some "B") (some "skip next thing") none]).map Segment.rules).flatten
      = [Rule.mk none (some "A") (some "skip next thing") none,
         Rule.mk none none (some "act") none,
         Rule.mk none (some "B") (some "skip next thing") none])
    ∧ (∃ r, (Segment.mk [Rule.mk none (some "A") (some "skip next thing") none,
        Rule.mk none none (some "act") none]).rules.getLast? = some r ∧ isSkip r = false) := by
  have h := claim2_segmenter_reconstruction
    [Rule.mk none (some "A") (some "skip next thing") none,
     Rule.mk none none (some "act") none,
     Rule.mk none (some "B") (some "skip next thing") none]
  refine ⟨h.1, ?_⟩
  refine h.2.2.1 0 _ (by decide) ?_
  decide

end RuleEngine
